import Mathlib

/-!
Shallow embedding of `filter-counts` (`src/main.rs`): a streaming filter for
tab-delimited gene-expression count matrices.  Rust strings are modelled as
`List Char`, `u64` values as `Nat` bounded by `2 ^ 64` at parse time, and the
per-line loop of `main` as a state-passing function.  A Rust panic (vector
index out of bounds) is modelled as `none`.
-/

/-- Lines of text in the model: a Rust `String` stripped of its line terminator. -/
abbrev Str := List Char

/-- Model of Rust `str::trim` (the whitespace characters relevant here). -/
def rustTrim (s : Str) : Str :=
  ((s.dropWhile Char.isWhitespace).reverse.dropWhile Char.isWhitespace).reverse

/-- Model of Rust `str::split('\t')`: never returns an empty list. -/
def splitTab : Str → List Str
  | [] => [[]]
  | c :: cs =>
    if c = '\t' then [] :: splitTab cs
    else
      match splitTab cs with
      | [] => [[c]]
      | f :: rest => (c :: f) :: rest

/-- Inverse of `splitTab`: interleave the pieces with tab characters
(model of `Vec::join("\t")`). -/
def joinTab : List Str → Str
  | [] => []
  | [f] => f
  | f :: fs => f ++ '\t' :: joinTab fs

/-- Model of `gene.starts_with("__")` (line 171 of `main.rs`). -/
def startsWithMarker (s : Str) : Bool :=
  match s with
  | c1 :: c2 :: _ => c1 = '_' && c2 = '_'
  | _ => false

/-- Model of `trim_start_matches('_')` (line 249 of `main.rs`): strips every
leading underscore. -/
def stripUnderscores (s : Str) : Str := s.dropWhile (· = '_')

/-- The character for a decimal digit value below ten. -/
def decDigit (d : Nat) : Char :=
  match d with
  | 0 => '0' | 1 => '1' | 2 => '2' | 3 => '3' | 4 => '4'
  | 5 => '5' | 6 => '6' | 7 => '7' | 8 => '8' | _ => '9'

/-- Decimal rendering of a natural number (model of `u64::to_string`),
with fuel for structural recursion. -/
def natToDecAux : Nat → Nat → Str
  | 0, _ => []
  | fuel + 1, n =>
    if n < 10 then [decDigit n]
    else natToDecAux fuel (n / 10) ++ [decDigit (n % 10)]

/-- Decimal rendering of a natural number (model of `u64::to_string`). -/
def natToDec (n : Nat) : Str := natToDecAux (n + 1) n

/-- Numeric value of a digit list, most significant first. -/
def digitsVal (cs : Str) : Nat := cs.foldl (fun a c => a * 10 + (c.toNat - 48)) 0

/-- Model of Rust `str::parse::<u64>()`: an optional leading `+` sign, then
one or more ASCII digits, value below `2 ^ 64`; anything else fails. -/
def parseU64 (s : Str) : Option Nat :=
  let t := if s.headD ' ' = '+' then s.tail else s
  if t ≠ [] ∧ t.all Char.isDigit then
    if digitsVal t < 2 ^ 64 then some (digitsVal t) else none
  else none

/-- `Option`-valued map over a list, failing when any element fails
(model of `collect::<Result<Vec<_>, _>>()` and of indexed vector reads). -/
def optMap (f : α → Option β) : List α → Option (List β)
  | [] => some []
  | a :: as_ =>
    match f a, optMap f as_ with
    | some b, some bs => some (b :: bs)
    | _, _ => none

/-- Per-sample metadata (the `Sample` struct of `main.rs`). -/
structure Sample where
  name : Str
  metacounts : List Nat
  total_count : Nat
  passed_count : Nat
  total_expressed : Nat
  passed_expressed : Nat
deriving DecidableEq

/-- The configuration surface consumed by the pass (the `Cli` struct, minus
logging/paths; `separate_metacounts` records whether `--metacount-file` was
given). -/
structure Config where
  min_count : Option Nat
  min_expressed : Option Nat
  filter_identical : Bool
  expression_threshold : Nat
  separate_metacounts : Bool
  summary_metacounts : Bool
deriving DecidableEq

/-- The mutable state of `main`'s loop: samples, metacount names, the two gene
counters, and the lines printed to the main output so far. -/
structure St where
  samples : List Sample
  metacount_names : List Str
  total_genes : Nat
  passed_genes : Nat
  mainOut : List Str
deriving DecidableEq

/-- One sample's totals update (body of the loop at lines 185–192):
`total_count += c` and, when the count reaches the expression threshold,
`total_expressed += 1`. -/
def bumpTotal (ths : Nat) (s : Sample) (c : Nat) : Sample :=
  { s with
    total_count := s.total_count + c,
    total_expressed := s.total_expressed + (if ths ≤ c then 1 else 0) }

/-- One sample's passed-totals update (body of the loop at lines 223–228). -/
def bumpPassed (ths : Nat) (s : Sample) (c : Nat) : Sample :=
  { s with
    passed_count := s.passed_count + c,
    passed_expressed := s.passed_expressed + (if ths ≤ c then 1 else 0) }

/-- One sample's metacount push (line 174). -/
def bumpMeta (s : Sample) (c : Nat) : Sample :=
  { s with metacounts := s.metacounts ++ [c] }

/-- The totals update of lines 185–192, one sample per count; indexing a
sample that does not exist is a panic (`none`). -/
def updTotals (ths : Nat) : List Sample → List Nat → Option (List Sample)
  | ss, [] => some ss
  | [], _ :: _ => none
  | s :: ss, c :: cs =>
    match updTotals ths ss cs with
    | none => none
    | some r => some (bumpTotal ths s c :: r)

/-- The passed-totals update of lines 223–228. -/
def updPassed (ths : Nat) : List Sample → List Nat → Option (List Sample)
  | ss, [] => some ss
  | [], _ :: _ => none
  | s :: ss, c :: cs =>
    match updPassed ths ss cs with
    | none => none
    | some r => some (bumpPassed ths s c :: r)

/-- The metacount push of lines 173–175: append one value to each touched
sample's metacount list. -/
def pushMeta : List Sample → List Nat → Option (List Sample)
  | ss, [] => some ss
  | [], _ :: _ => none
  | s :: ss, c :: cs =>
    match pushMeta ss cs with
    | none => none
    | some r => some (bumpMeta s c :: r)

/-- The fields of a line: split the trimmed line on tabs (lines 157–158). -/
def fieldsOf (line : Str) : List Str := splitTab (rustTrim line)

/-- The gene identifier: the first field (line 159). -/
def geneOf (line : Str) : Str := (fieldsOf line).headD []

/-- The parsed counts: every field after the first must parse as `u64`
(lines 162–168); `none` models the malformed-row outcome. -/
def countsOf (line : Str) : Option (List Nat) := optMap parseU64 ((fieldsOf line).drop 1)

/-- Number of expressed samples of a row (`gene_nexpressed`, lines 188–189). -/
def nexpressed (ths : Nat) (counts : List Nat) : Nat :=
  counts.countP (fun c => ths ≤ c)

/-- The minimum-total-count rejection of lines 195–201. -/
def failsMinCount (cfg : Config) (counts : List Nat) : Bool :=
  match cfg.min_count with
  | some m => counts.sum < m
  | none => false

/-- The minimum-expressed rejection of lines 204–210. -/
def failsMinExpressed (cfg : Config) (counts : List Nat) : Bool :=
  match cfg.min_expressed with
  | some m => nexpressed cfg.expression_threshold counts < m
  | none => false

/-- The zero-variance rejection of line 213: enabled and every count equals
the first one (on an empty list the closure is never called and `all` holds). -/
def failsIdentical (cfg : Config) (counts : List Nat) : Bool :=
  cfg.filter_identical && counts.all (fun c => c = counts.headD 0)

/-- `gene_filtered` at the end of lines 194–216. -/
def geneFiltered (cfg : Config) (counts : List Nat) : Bool :=
  failsMinCount cfg counts || failsMinExpressed cfg counts || failsIdentical cfg counts

/-- One iteration of the loop over data lines (lines 152–230).  `none` models
a panic aborting the process; a malformed line leaves the state unchanged. -/
def processLine (cfg : Config) (st : St) (line : Str) : Option St :=
  match countsOf line with
  | none => some st
  | some counts =>
    if startsWithMarker (geneOf line) then
      match pushMeta st.samples counts with
      | none => none
      | some ss =>
        some { st with
          samples := ss,
          metacount_names := st.metacount_names ++ [geneOf line] }
    else
      match updTotals cfg.expression_threshold st.samples counts with
      | none => none
      | some ss1 =>
        if geneFiltered cfg counts then
          some { st with samples := ss1, total_genes := st.total_genes + 1 }
        else
          match updPassed cfg.expression_threshold ss1 counts with
          | none => none
          | some ss2 =>
            some { st with
              samples := ss2,
              total_genes := st.total_genes + 1,
              passed_genes := st.passed_genes + 1,
              mainOut := st.mainOut ++ [rustTrim line] }

/-- Sample names: the header's fields after the first (line 136). -/
def sampleNames (header : Str) : List Str := (splitTab (rustTrim header)).drop 1

/-- The number of samples `S`, fixed by the header. -/
def sampleCount (header : Str) : Nat := (sampleNames header).length

/-- The state before the loop: fresh samples, zero counters, and the header
already echoed to the main output (lines 131–149). -/
def initSt (header : Str) : St :=
  { samples := (sampleNames header).map fun n =>
      { name := n, metacounts := [], total_count := 0, passed_count := 0,
        total_expressed := 0, passed_expressed := 0 },
    metacount_names := [], total_genes := 0, passed_genes := 0,
    mainOut := [header] }

/-- Run the loop over a list of data lines. -/
def runList (cfg : Config) : St → List Str → Option St
  | st, [] => some st
  | st, l :: ls =>
    match processLine cfg st l with
    | none => none
    | some st' => runList cfg st' ls

/-- The whole pass after the header has been read. -/
def runLines (cfg : Config) (header : Str) (lines : List Str) : Option St :=
  runList cfg (initSt header) lines

/-- The metacount header line, written only to a separate destination
(lines 233–237). -/
def metaHeaderLines (cfg : Config) (samples : List Sample) : List Str :=
  if cfg.separate_metacounts then
    [joinTab ("feature".toList :: samples.map (·.name))]
  else []

/-- The `MetacountDestination` marker text: `"__"` on the combined stream,
empty for a dedicated file (lines 99–112). -/
def markerText (cfg : Config) : Str :=
  if cfg.separate_metacounts then [] else "__".toList

/-- One synthetic summary row (lines 239–242): marker text, the accumulator
name, a tab, then the per-sample values joined by tabs. -/
def summaryLine (cfg : Config) (samples : List Sample) (nm : Str) (f : Sample → Nat) : Str :=
  markerText cfg ++ nm ++ '\t' :: joinTab (samples.map fun s => natToDec (f s))

/-- The four synthetic summary rows, present only with `--summary`
(lines 238–243). -/
def summaryLines (cfg : Config) (samples : List Sample) : List Str :=
  if cfg.summary_metacounts then
    [summaryLine cfg samples "total_count".toList (·.total_count),
     summaryLine cfg samples "passed_count".toList (·.passed_count),
     summaryLine cfg samples "total_expressed".toList (·.total_expressed),
     summaryLine cfg samples "passed_expressed".toList (·.passed_expressed)]
  else []

/-- The displayed identifier of a metafeature row: raw on the combined stream,
all leading underscores stripped for a dedicated file (lines 246–250). -/
def dispName (cfg : Config) (nm : Str) : Str :=
  if cfg.separate_metacounts then stripUnderscores nm else nm

/-- The metafeature rows written at the end (lines 244–251): the `i`-th stored
name with the `i`-th stored metacount of every sample; a missing entry is an
index panic (`none`). -/
def metaRowsAux (cfg : Config) (samples : List Sample) : Nat → List Str → Option (List Str)
  | _, [] => some []
  | i, nm :: ns =>
    match optMap (fun s => s.metacounts.get? i) samples, metaRowsAux cfg samples (i + 1) ns with
    | some cs, some rest =>
      some ((dispName cfg nm ++ '\t' :: joinTab (cs.map natToDec)) :: rest)
    | _, _ => none

/-- All metafeature rows written at the end of the pass. -/
def metaRowLines (cfg : Config) (samples : List Sample) (names : List Str) : Option (List Str) :=
  metaRowsAux cfg samples 0 names

/-- The whole program on one input: the main-output lines and, when a separate
metacount destination is configured, its lines (lines 119–256). -/
def runProgram (cfg : Config) (header : Str) (lines : List Str) :
    Option (List Str × Option (List Str)) :=
  match runLines cfg header lines with
  | none => none
  | some st =>
    match metaRowLines cfg st.samples st.metacount_names with
    | none => none
    | some rows =>
      let metaL := metaHeaderLines cfg st.samples ++ summaryLines cfg st.samples ++ rows
      if cfg.separate_metacounts then some (st.mainOut, some metaL)
      else some (st.mainOut ++ metaL, none)

/-- The pure per-line emission to the main output: the trimmed line, when it
parses, is not a metafeature, and passes every enabled filter. -/
def emittedLine (cfg : Config) (line : Str) : Option Str :=
  match countsOf line with
  | none => none
  | some counts =>
    if startsWithMarker (geneOf line) then none
    else if geneFiltered cfg counts then none
    else some (rustTrim line)

/-- Whether a line parses as an ordinary (non-metafeature) row. -/
def parsedOrdinary (line : Str) : Bool :=
  (countsOf line).isSome && !startsWithMarker (geneOf line)

/-- The metafeature name a line contributes, when it parses and carries the
reserved marker. -/
def metaNameOf (line : Str) : Option Str :=
  match countsOf line with
  | none => none
  | some _ => if startsWithMarker (geneOf line) then some (geneOf line) else none

/-- Configuration with every filter disabled, combined destination, no summary. -/
def cfgNone : Config :=
  { min_count := none, min_expressed := none, filter_identical := false,
    expression_threshold := 1, separate_metacounts := false, summary_metacounts := false }

/-- Every filter disabled, separate metacount destination, no summary. -/
def cfgSep : Config := { cfgNone with separate_metacounts := true }

/-- Every filter disabled, separate metacount destination, summary rows on. -/
def cfgSepSum : Config := { cfgNone with separate_metacounts := true, summary_metacounts := true }

/-- Every filter disabled, combined destination, summary rows on. -/
def cfgSum : Config := { cfgNone with summary_metacounts := true }

/-- Only the zero-variance filter enabled, combined destination. -/
def cfgIdent : Config := { cfgNone with filter_identical := true }

/-- The per-sample inequalities tracked through the pass. -/
def sampleInv (s : Sample) : Prop :=
  s.passed_count ≤ s.total_count ∧ s.passed_expressed ≤ s.total_expressed

theorem updTotals_nil (ths : Nat) (ss : List Sample) : updTotals ths ss [] = some ss := by
  cases ss <;> rfl

theorem updPassed_nil (ths : Nat) (ss : List Sample) : updPassed ths ss [] = some ss := by
  cases ss <;> rfl

theorem pushMeta_nil (ss : List Sample) : pushMeta ss [] = some ss := by
  cases ss <;> rfl

theorem updTotals_map_name (ths : Nat) :
    ∀ (ss : List Sample) (cs : List Nat) (r : List Sample),
      updTotals ths ss cs = some r → r.map (·.name) = ss.map (·.name) := by
  intro ss cs
  induction cs generalizing ss with
  | nil => intro r h; rw [updTotals_nil] at h; cases h; rfl
  | cons c cs ih =>
    intro r h
    cases ss with
    | nil => simp [updTotals] at h
    | cons s ss =>
      simp only [updTotals] at h
      cases h' : updTotals ths ss cs with
      | none => rw [h'] at h; cases h
      | some r' =>
        rw [h'] at h; cases h
        simp [bumpTotal, ih ss r' h']

theorem updPassed_map_name (ths : Nat) :
    ∀ (ss : List Sample) (cs : List Nat) (r : List Sample),
      updPassed ths ss cs = some r → r.map (·.name) = ss.map (·.name) := by
  intro ss cs
  induction cs generalizing ss with
  | nil => intro r h; rw [updPassed_nil] at h; cases h; rfl
  | cons c cs ih =>
    intro r h
    cases ss with
    | nil => simp [updPassed] at h
    | cons s ss =>
      simp only [updPassed] at h
      cases h' : updPassed ths ss cs with
      | none => rw [h'] at h; cases h
      | some r' =>
        rw [h'] at h; cases h
        simp [bumpPassed, ih ss r' h']

theorem pushMeta_map_name :
    ∀ (ss : List Sample) (cs : List Nat) (r : List Sample),
      pushMeta ss cs = some r → r.map (·.name) = ss.map (·.name) := by
  intro ss cs
  induction cs generalizing ss with
  | nil => intro r h; rw [pushMeta_nil] at h; cases h; rfl
  | cons c cs ih =>
    intro r h
    cases ss with
    | nil => simp [pushMeta] at h
    | cons s ss =>
      simp only [pushMeta] at h
      cases h' : pushMeta ss cs with
      | none => rw [h'] at h; cases h
      | some r' =>
        rw [h'] at h; cases h
        simp [bumpMeta, ih ss r' h']

theorem updTotals_map_metacounts (ths : Nat) :
    ∀ (ss : List Sample) (cs : List Nat) (r : List Sample),
      updTotals ths ss cs = some r → r.map (·.metacounts) = ss.map (·.metacounts) := by
  intro ss cs
  induction cs generalizing ss with
  | nil => intro r h; rw [updTotals_nil] at h; cases h; rfl
  | cons c cs ih =>
    intro r h
    cases ss with
    | nil => simp [updTotals] at h
    | cons s ss =>
      simp only [updTotals] at h
      cases h' : updTotals ths ss cs with
      | none => rw [h'] at h; cases h
      | some r' =>
        rw [h'] at h; cases h
        simp [bumpTotal, ih ss r' h']

theorem updPassed_map_metacounts (ths : Nat) :
    ∀ (ss : List Sample) (cs : List Nat) (r : List Sample),
      updPassed ths ss cs = some r → r.map (·.metacounts) = ss.map (·.metacounts) := by
  intro ss cs
  induction cs generalizing ss with
  | nil => intro r h; rw [updPassed_nil] at h; cases h; rfl
  | cons c cs ih =>
    intro r h
    cases ss with
    | nil => simp [updPassed] at h
    | cons s ss =>
      simp only [updPassed] at h
      cases h' : updPassed ths ss cs with
      | none => rw [h'] at h; cases h
      | some r' =>
        rw [h'] at h; cases h
        simp [bumpPassed, ih ss r' h']

theorem updTotals_inv (ths : Nat) :
    ∀ (ss : List Sample) (cs : List Nat) (r : List Sample),
      updTotals ths ss cs = some r → (∀ s ∈ ss, sampleInv s) → ∀ s ∈ r, sampleInv s := by
  intro ss cs
  induction cs generalizing ss with
  | nil => intro r h hs; rw [updTotals_nil] at h; cases h; exact hs
  | cons c cs ih =>
    intro r h hs
    cases ss with
    | nil => simp [updTotals] at h
    | cons s ss =>
      simp only [updTotals] at h
      cases h' : updTotals ths ss cs with
      | none => rw [h'] at h; cases h
      | some r' =>
        rw [h'] at h; cases h
        intro t ht
        rcases List.mem_cons.mp ht with rfl | ht
        · rcases hs s (List.mem_cons_self s ss) with ⟨h1, h2⟩
          exact ⟨Nat.le_trans h1 (Nat.le_add_right _ _),
                 Nat.le_trans h2 (Nat.le_add_right _ _)⟩
        · exact ih ss r' h' (fun u hu => hs u (List.mem_cons_of_mem _ hu)) t ht

theorem updTP_inv (ths : Nat) :
    ∀ (ss : List Sample) (cs : List Nat) (ss1 ss2 : List Sample),
      updTotals ths ss cs = some ss1 → updPassed ths ss1 cs = some ss2 →
      (∀ s ∈ ss, sampleInv s) → ∀ s ∈ ss2, sampleInv s := by
  intro ss cs
  induction cs generalizing ss with
  | nil => intro ss1 ss2 h1 h2 hs; rw [updTotals_nil] at h1; cases h1; rw [updPassed_nil] at h2; cases h2; exact hs
  | cons c cs ih =>
    intro ss1 ss2 h1 h2 hs
    cases ss with
    | nil => simp [updTotals] at h1
    | cons s ss =>
      simp only [updTotals] at h1
      cases h1' : updTotals ths ss cs with
      | none => rw [h1'] at h1; cases h1
      | some r1 =>
        rw [h1'] at h1; cases h1
        simp only [updPassed] at h2
        cases h2' : updPassed ths r1 cs with
        | none => rw [h2'] at h2; cases h2
        | some r2 =>
          rw [h2'] at h2; cases h2
          intro t ht
          rcases List.mem_cons.mp ht with rfl | ht
          · rcases hs s (List.mem_cons_self s ss) with ⟨hp, he⟩
            refine ⟨?_, ?_⟩
            · exact Nat.add_le_add_right hp c
            · exact Nat.add_le_add_right he _
          · exact ih ss r1 r2 h1' h2'
              (fun u hu => hs u (List.mem_cons_of_mem _ hu)) t ht

theorem pushMeta_inv :
    ∀ (ss : List Sample) (cs : List Nat) (r : List Sample),
      pushMeta ss cs = some r → (∀ s ∈ ss, sampleInv s) → ∀ s ∈ r, sampleInv s := by
  intro ss cs
  induction cs generalizing ss with
  | nil => intro r h hs; rw [pushMeta_nil] at h; cases h; exact hs
  | cons c cs ih =>
    intro r h hs
    cases ss with
    | nil => simp [pushMeta] at h
    | cons s ss =>
      simp only [pushMeta] at h
      cases h' : pushMeta ss cs with
      | none => rw [h'] at h; cases h
      | some r' =>
        rw [h'] at h; cases h
        intro t ht
        rcases List.mem_cons.mp ht with rfl | ht
        · exact hs s (List.mem_cons_self s ss)
        · exact ih ss r' h' (fun u hu => hs u (List.mem_cons_of_mem _ hu)) t ht

theorem processLine_some (cfg : Config) (st : St) (line : Str) (st' : St)
    (h : processLine cfg st line = some st') :
    st'.mainOut = st.mainOut ++ (emittedLine cfg line).toList ∧
    st'.total_genes = st.total_genes + (if parsedOrdinary line then 1 else 0) ∧
    st'.passed_genes = st.passed_genes + (if (emittedLine cfg line).isSome then 1 else 0) ∧
    st'.metacount_names = st.metacount_names ++ (metaNameOf line).toList ∧
    st'.samples.map (·.name) = st.samples.map (·.name) := by
  simp only [processLine] at h
  cases hc : countsOf line with
  | none =>
    rw [hc] at h; cases h
    simp [emittedLine, parsedOrdinary, metaNameOf, hc]
  | some counts =>
    simp only [hc] at h
    by_cases hm : startsWithMarker (geneOf line) = true
    · rw [if_pos hm] at h
      cases hp : pushMeta st.samples counts with
      | none => simp only [hp] at h; exact Option.noConfusion h
      | some ss =>
        simp only [hp] at h; cases h
        simp [emittedLine, parsedOrdinary, metaNameOf, hc, hm, pushMeta_map_name _ _ _ hp]
    · rw [if_neg hm] at h
      cases ht : updTotals cfg.expression_threshold st.samples counts with
      | none => simp only [ht] at h; exact Option.noConfusion h
      | some ss1 =>
        simp only [ht] at h
        by_cases hf : geneFiltered cfg counts = true
        · rw [if_pos hf] at h; cases h
          simp [emittedLine, parsedOrdinary, metaNameOf, hc, hm, hf,
            updTotals_map_name _ _ _ _ ht]
        · rw [if_neg hf] at h
          cases hq : updPassed cfg.expression_threshold ss1 counts with
          | none => simp only [hq] at h; exact Option.noConfusion h
          | some ss2 =>
            simp only [hq] at h; cases h
            refine ⟨?_, ?_, ?_, ?_, ?_⟩
            · simp [emittedLine, hc, hm, hf]
            · simp [parsedOrdinary, hc, hm]
            · simp [emittedLine, hc, hm, hf]
            · simp [metaNameOf, hc, hm]
            · rw [updPassed_map_name _ _ _ _ hq, updTotals_map_name _ _ _ _ ht]

theorem processLine_inv (cfg : Config) (st : St) (line : Str) (st' : St)
    (h : processLine cfg st line = some st')
    (hs : ∀ s ∈ st.samples, sampleInv s) : ∀ s ∈ st'.samples, sampleInv s := by
  simp only [processLine] at h
  cases hc : countsOf line with
  | none => rw [hc] at h; cases h; exact hs
  | some counts =>
    simp only [hc] at h
    by_cases hm : startsWithMarker (geneOf line) = true
    · rw [if_pos hm] at h
      cases hp : pushMeta st.samples counts with
      | none => simp only [hp] at h; exact Option.noConfusion h
      | some ss =>
        simp only [hp] at h; cases h
        exact pushMeta_inv _ _ _ hp hs
    · rw [if_neg hm] at h
      cases ht : updTotals cfg.expression_threshold st.samples counts with
      | none => simp only [ht] at h; exact Option.noConfusion h
      | some ss1 =>
        simp only [ht] at h
        by_cases hf : geneFiltered cfg counts = true
        · rw [if_pos hf] at h; cases h
          exact updTotals_inv _ _ _ _ ht hs
        · rw [if_neg hf] at h
          cases hq : updPassed cfg.expression_threshold ss1 counts with
          | none => simp only [hq] at h; exact Option.noConfusion h
          | some ss2 =>
            simp only [hq] at h; cases h
            exact updTP_inv _ _ _ _ _ ht hq hs

theorem processLine_samples_length (cfg : Config) (st : St) (line : Str) (st' : St)
    (h : processLine cfg st line = some st') :
    st'.samples.length = st.samples.length := by
  have h5 := (processLine_some cfg st line st' h).2.2.2.2
  have := congrArg List.length h5
  simpa using this

theorem runList_char (cfg : Config) :
    ∀ (ls : List Str) (st st' : St), runList cfg st ls = some st' →
      st'.mainOut = st.mainOut ++ ls.filterMap (emittedLine cfg) ∧
      st'.total_genes = st.total_genes + ls.countP parsedOrdinary ∧
      st'.passed_genes = st.passed_genes + ls.countP (fun l => (emittedLine cfg l).isSome) ∧
      st'.metacount_names = st.metacount_names ++ ls.filterMap metaNameOf ∧
      st'.samples.map (·.name) = st.samples.map (·.name) := by
  intro ls
  induction ls with
  | nil => intro st st' h; cases h; simp
  | cons l ls ih =>
    intro st st' h
    simp only [runList] at h
    cases hp : processLine cfg st l with
    | none => simp only [hp] at h; exact Option.noConfusion h
    | some st1 =>
      simp only [hp] at h
      obtain ⟨m1, t1, p1, n1, s1⟩ := processLine_some cfg st l st1 hp
      obtain ⟨m2, t2, p2, n2, s2⟩ := ih st1 st' h
      refine ⟨?_, ?_, ?_, ?_, s2.trans s1⟩
      · rw [m2, m1]
        cases he : emittedLine cfg l <;> simp [he, List.filterMap_cons]
      · rw [t2, t1, List.countP_cons]; omega
      · rw [p2, p1, List.countP_cons]; omega
      · rw [n2, n1]
        cases he : metaNameOf l <;> simp [he, List.filterMap_cons]

theorem runList_inv (cfg : Config) :
    ∀ (ls : List Str) (st st' : St), runList cfg st ls = some st' →
      (∀ s ∈ st.samples, sampleInv s) → ∀ s ∈ st'.samples, sampleInv s := by
  intro ls
  induction ls with
  | nil => intro st st' h hs; cases h; exact hs
  | cons l ls ih =>
    intro st st' h hs
    simp only [runList] at h
    cases hp : processLine cfg st l with
    | none => simp only [hp] at h; exact Option.noConfusion h
    | some st1 =>
      simp only [hp] at h
      exact ih st1 st' h (processLine_inv cfg st l st1 hp hs)

theorem runList_append (cfg : Config) :
    ∀ (l1 l2 : List Str) (st : St),
      runList cfg st (l1 ++ l2) =
        match runList cfg st l1 with
        | none => none
        | some st1 => runList cfg st1 l2 := by
  intro l1
  induction l1 with
  | nil => intro l2 st; rfl
  | cons l l1 ih =>
    intro l2 st
    simp only [List.cons_append, runList]
    cases hp : processLine cfg st l with
    | none => rfl
    | some st1 => exact ih l2 st1

theorem emitted_imp_ordinary (cfg : Config) (l : Str) :
    (emittedLine cfg l).isSome = true → parsedOrdinary l = true := by
  unfold emittedLine parsedOrdinary
  cases hc : countsOf l with
  | none => simp
  | some counts =>
    by_cases hm : startsWithMarker (geneOf l) = true
    · simp [hm]
    · by_cases hf : geneFiltered cfg counts = true <;> simp [hm, hf]

theorem initSt_inv (header : Str) : ∀ s ∈ (initSt header).samples, sampleInv s := by
  intro s hs
  simp only [initSt, List.mem_map] at hs
  obtain ⟨n, _, rfl⟩ := hs
  exact ⟨Nat.le_refl 0, Nat.le_refl 0⟩

theorem updTotals_some (ths : Nat) :
    ∀ (ss : List Sample) (cs : List Nat), cs.length ≤ ss.length →
      ∃ r, updTotals ths ss cs = some r ∧ r.length = ss.length := by
  intro ss cs
  induction cs generalizing ss with
  | nil => intro _; exact ⟨ss, updTotals_nil ths ss, rfl⟩
  | cons c cs ih =>
    intro hle
    cases ss with
    | nil => simp at hle
    | cons s ss =>
      obtain ⟨r, hr, hl⟩ := ih ss (Nat.le_of_succ_le_succ hle)
      exact ⟨bumpTotal ths s c :: r, by simp [updTotals, hr], by simp [hl]⟩

theorem updPassed_some (ths : Nat) :
    ∀ (ss : List Sample) (cs : List Nat), cs.length ≤ ss.length →
      ∃ r, updPassed ths ss cs = some r ∧ r.length = ss.length := by
  intro ss cs
  induction cs generalizing ss with
  | nil => intro _; exact ⟨ss, updPassed_nil ths ss, rfl⟩
  | cons c cs ih =>
    intro hle
    cases ss with
    | nil => simp at hle
    | cons s ss =>
      obtain ⟨r, hr, hl⟩ := ih ss (Nat.le_of_succ_le_succ hle)
      exact ⟨bumpPassed ths s c :: r, by simp [updPassed, hr], by simp [hl]⟩

theorem pushMeta_some :
    ∀ (ss : List Sample) (cs : List Nat), cs.length ≤ ss.length →
      ∃ r, pushMeta ss cs = some r ∧ r.length = ss.length := by
  intro ss cs
  induction cs generalizing ss with
  | nil => intro _; exact ⟨ss, pushMeta_nil ss, rfl⟩
  | cons c cs ih =>
    intro hle
    cases ss with
    | nil => simp at hle
    | cons s ss =>
      obtain ⟨r, hr, hl⟩ := ih ss (Nat.le_of_succ_le_succ hle)
      exact ⟨bumpMeta s c :: r, by simp [pushMeta, hr], by simp [hl]⟩

theorem updTotals_none (ths : Nat) :
    ∀ (ss : List Sample) (cs : List Nat), ss.length < cs.length →
      updTotals ths ss cs = none := by
  intro ss cs
  induction cs generalizing ss with
  | nil => intro h; simp at h
  | cons c cs ih =>
    intro h
    cases ss with
    | nil => rfl
    | cons s ss =>
      simp only [updTotals, ih ss (Nat.lt_of_succ_lt_succ h)]

theorem allEqHead_iff_pairwise (counts : List Nat) :
    (∀ c ∈ counts, c = counts.headD 0) ↔ (∀ c ∈ counts, ∀ d ∈ counts, c = d) := by
  constructor
  · intro hall c hc d hd
    rw [hall c hc, hall d hd]
  · intro hpair c hc
    cases counts with
    | nil => cases hc
    | cons a l => exact hpair c hc a (List.mem_cons_self a l)

theorem geneFiltered_allOff (cfg : Config) (counts : List Nat)
    (h1 : cfg.min_count = none) (h2 : cfg.min_expressed = none)
    (h3 : cfg.filter_identical = false) :
    geneFiltered cfg counts = false := by
  simp [geneFiltered, failsMinCount, failsMinExpressed, failsIdentical, h1, h2, h3]

theorem emittedLine_allOff (cfg : Config) (line : Str)
    (h1 : cfg.min_count = none) (h2 : cfg.min_expressed = none)
    (h3 : cfg.filter_identical = false) :
    emittedLine cfg line =
      if parsedOrdinary line then some (rustTrim line) else none := by
  unfold emittedLine parsedOrdinary
  cases hc : countsOf line with
  | none => rfl
  | some counts =>
    by_cases hm : startsWithMarker (geneOf line) = true
    · simp [hm]
    · simp [hm, geneFiltered_allOff cfg counts h1 h2 h3]

theorem pushMeta_zip :
    ∀ (ss : List Sample) (cs : List Nat), cs.length = ss.length →
      pushMeta ss cs = some (List.zipWith bumpMeta ss cs) := by
  intro ss cs
  induction cs generalizing ss with
  | nil =>
    intro h
    cases ss with
    | nil => rfl
    | cons s ss => simp at h
  | cons c cs ih =>
    intro h
    cases ss with
    | nil => simp at h
    | cons s ss =>
      simp only [pushMeta, ih ss (by simpa using h), List.zipWith_cons_cons]

theorem optMap_get0_zipBump :
    ∀ (ss : List Sample) (cs : List Nat), cs.length = ss.length →
      (∀ s ∈ ss, s.metacounts = []) →
      optMap (fun s => s.metacounts.get? 0) (List.zipWith bumpMeta ss cs) = some cs := by
  intro ss cs
  induction cs generalizing ss with
  | nil =>
    intro h _
    cases ss with
    | nil => rfl
    | cons s ss => simp at h
  | cons c cs ih =>
    intro h hnil
    cases ss with
    | nil => simp at h
    | cons s ss =>
      have hs : s.metacounts = [] := hnil s (List.mem_cons_self s ss)
      simp only [List.zipWith_cons_cons, optMap, bumpMeta, hs, List.nil_append,
        List.get?, ih ss (by simpa using h) (fun u hu => hnil u (List.mem_cons_of_mem _ hu))]

theorem initSt_samples_length (header : Str) :
    (initSt header).samples.length = sampleCount header := by
  simp [initSt, sampleCount]

theorem initSt_names (header : Str) :
    (initSt header).samples.map (·.name) = sampleNames header := by
  simp only [initSt, List.map_map]
  exact List.map_id _

theorem initSt_metacounts_nil (header : Str) :
    ∀ s ∈ (initSt header).samples, s.metacounts = [] := by
  intro s hs
  simp only [initSt, List.mem_map] at hs
  obtain ⟨n, _, rfl⟩ := hs
  rfl

theorem dropWhile_head_not (p : Char → Bool) :
    ∀ (l : List Char) (c : Char), (l.dropWhile p).head? = some c → p c = false := by
  intro l
  induction l with
  | nil => intro c h; cases h
  | cons a l ih =>
    intro c h
    by_cases hp : p a = true
    · rw [List.dropWhile_cons_of_pos hp] at h
      exact ih c h
    · rw [List.dropWhile_cons_of_neg hp] at h
      cases h
      exact Bool.eq_false_iff.mpr hp

theorem dropWhile_eq_self_of_head (p : Char → Bool) (l : List Char)
    (h : ∀ c, l.head? = some c → p c = false) : l.dropWhile p = l := by
  cases l with
  | nil => rfl
  | cons a l => exact List.dropWhile_cons_of_neg (by simp [h a rfl])

theorem rustTrim_split (s : Str) :
    ∃ t, s.dropWhile Char.isWhitespace = rustTrim s ++ t := by
  refine ⟨((s.dropWhile Char.isWhitespace).reverse.takeWhile Char.isWhitespace).reverse, ?_⟩
  unfold rustTrim
  conv_lhs => rw [← List.reverse_reverse (s.dropWhile Char.isWhitespace)]
  rw [← List.reverse_append, List.takeWhile_append_dropWhile]

theorem rustTrim_head (s : Str) :
    ∀ c, (rustTrim s).head? = some c → c.isWhitespace = false := by
  intro c hc
  obtain ⟨t, ht⟩ := rustTrim_split s
  cases hr : rustTrim s with
  | nil => rw [hr] at hc; cases hc
  | cons a u =>
    rw [hr] at hc
    cases hc
    rw [hr] at ht
    exact dropWhile_head_not Char.isWhitespace s c (by rw [ht]; rfl)

theorem rustTrim_getLast (s : Str) :
    ∀ c, (rustTrim s).getLast? = some c → c.isWhitespace = false := by
  intro c hc
  unfold rustTrim at hc
  rw [List.getLast?_reverse] at hc
  exact dropWhile_head_not Char.isWhitespace _ c hc

theorem rustTrim_eq_self (s : Str)
    (h1 : ∀ c, s.head? = some c → c.isWhitespace = false)
    (h2 : ∀ c, s.getLast? = some c → c.isWhitespace = false) : rustTrim s = s := by
  unfold rustTrim
  rw [dropWhile_eq_self_of_head Char.isWhitespace s h1]
  rw [dropWhile_eq_self_of_head Char.isWhitespace s.reverse
    (fun c hc => h2 c (by rwa [← List.getLast?_reverse (s.reverse), List.reverse_reverse] at hc))]
  exact List.reverse_reverse s

theorem rustTrim_idem (s : Str) : rustTrim (rustTrim s) = rustTrim s :=
  rustTrim_eq_self (rustTrim s) (rustTrim_head s) (rustTrim_getLast s)

theorem rustTrim_append_ws (s t : Str) (ht : ∀ c ∈ t, c.isWhitespace = true) :
    rustTrim (s ++ t) = rustTrim s := by
  unfold rustTrim
  rw [List.dropWhile_append]
  by_cases hs : (s.dropWhile Char.isWhitespace).isEmpty = true
  · rw [if_pos hs]
    have hts : t.dropWhile Char.isWhitespace = [] :=
      List.dropWhile_eq_nil_iff.mpr (fun c hc => ht c hc)
    rw [hts, List.isEmpty_iff.mp hs]
  · rw [if_neg hs, List.reverse_append, List.dropWhile_append]
    have htr : t.reverse.dropWhile Char.isWhitespace = [] :=
      List.dropWhile_eq_nil_iff.mpr (fun c hc => ht c (List.mem_reverse.mp hc))
    rw [htr]
    rfl

theorem splitTab_ne_nil : ∀ s : Str, splitTab s ≠ [] := by
  intro s
  cases s with
  | nil => simp [splitTab]
  | cons c cs =>
    simp only [splitTab]
    by_cases hc : c = '\t'
    · simp [hc]
    · rw [if_neg hc]
      cases h : splitTab cs <;> simp

theorem joinTab_splitTab : ∀ s : Str, joinTab (splitTab s) = s := by
  intro s
  induction s with
  | nil => rfl
  | cons c cs ih =>
    simp only [splitTab]
    by_cases hc : c = '\t'
    · rw [if_pos hc, hc]
      cases h : splitTab cs with
      | nil => exact absurd h (splitTab_ne_nil cs)
      | cons f rest =>
        rw [h] at ih
        simp [joinTab, ih]
    · rw [if_neg hc]
      cases h : splitTab cs with
      | nil => exact absurd h (splitTab_ne_nil cs)
      | cons f rest =>
        rw [h] at ih
        cases rest with
        | nil => simp_all [joinTab]
        | cons g rest2 => simp_all [joinTab]

theorem splitTab_mem_no_tab : ∀ (s : Str) (p : Str), p ∈ splitTab s → '\t' ∉ p := by
  intro s
  induction s with
  | nil =>
    intro p hp
    simp only [splitTab, List.mem_singleton] at hp
    simp [hp]
  | cons c cs ih =>
    intro p hp
    simp only [splitTab] at hp
    by_cases hc : c = '\t'
    · rw [if_pos hc] at hp
      rcases List.mem_cons.mp hp with rfl | hp
      · simp
      · exact ih p hp
    · rw [if_neg hc] at hp
      cases h : splitTab cs with
      | nil => exact absurd h (splitTab_ne_nil cs)
      | cons f rest =>
        rw [h] at hp
        rcases List.mem_cons.mp hp with rfl | hp
        · intro hmem
          rcases List.mem_cons.mp hmem with heq | hmem
          · exact hc heq.symm
          · exact ih f (h ▸ List.mem_cons_self f rest) hmem
        · exact ih p (h ▸ List.mem_cons_of_mem f hp)

theorem splitTab_cons_of_head (c : Char) (cs : Str) (hc : ¬c = '\t') :
    ∃ f rest, splitTab cs = f :: rest ∧ splitTab (c :: cs) = (c :: f) :: rest := by
  cases h : splitTab cs with
  | nil => exact absurd h (splitTab_ne_nil cs)
  | cons f rest =>
    refine ⟨f, rest, rfl, ?_⟩
    simp only [splitTab, if_neg hc, h]

theorem splitTab_no_tab_append : ∀ (a s : Str), '\t' ∉ a →
    ∃ f rest, splitTab s = f :: rest ∧ splitTab (a ++ s) = (a ++ f) :: rest := by
  intro a
  induction a with
  | nil =>
    intro s _
    cases h : splitTab s with
    | nil => exact absurd h (splitTab_ne_nil s)
    | cons f rest => exact ⟨f, rest, rfl, by simpa using h⟩
  | cons c a ih =>
    intro s ha
    have hc : ¬c = '\t' := fun h => ha (h ▸ List.mem_cons_self c a)
    obtain ⟨f, rest, hs, happ⟩ := ih s (fun h => ha (List.mem_cons_of_mem c h))
    obtain ⟨f2, rest2, hs2, happ2⟩ := splitTab_cons_of_head c (a ++ s) hc
    rw [happ] at hs2
    cases hs2
    exact ⟨f, rest, hs, by simpa using happ2⟩

theorem splitTab_of_no_tab (a : Str) (ha : '\t' ∉ a) : splitTab a = [a] := by
  obtain ⟨f, rest, hs, happ⟩ := splitTab_no_tab_append a [] ha
  simp only [splitTab] at hs
  cases hs
  simpa using happ

theorem splitTab_tab_cons (s : Str) : splitTab ('\t' :: s) = [] :: splitTab s := by
  simp [splitTab]

theorem splitTab_joinTab : ∀ (pieces : List Str), pieces ≠ [] →
    (∀ p ∈ pieces, '\t' ∉ p) → splitTab (joinTab pieces) = pieces := by
  intro pieces
  induction pieces with
  | nil => intro h; exact absurd rfl h
  | cons f rest ih =>
    intro _ hall
    cases rest with
    | nil =>
      show splitTab (joinTab [f]) = [f]
      rw [joinTab]
      exact splitTab_of_no_tab f (hall f (List.mem_cons_self f []))
    | cons g rest2 =>
      show splitTab (f ++ '\t' :: joinTab (g :: rest2)) = f :: g :: rest2
      obtain ⟨f2, rest3, hs, happ⟩ :=
        splitTab_no_tab_append f ('\t' :: joinTab (g :: rest2))
          (hall f (List.mem_cons_self f _))
      rw [splitTab_tab_cons] at hs
      rw [ih (by simp) (fun p hp => hall p (List.mem_cons_of_mem f hp))] at hs
      cases hs
      simpa using happ

theorem splitTab_singleton (x y : Str) (h : splitTab x = [y]) : x = y := by
  have := joinTab_splitTab x
  rw [h] at this
  simpa [joinTab] using this.symm

theorem getLast?_mem_self (l : List Char) (c : Char) (h : l.getLast? = some c) :
    c ∈ l := by
  have hm : c ∈ l.getLast? := h
  obtain ⟨hne, heq⟩ := List.mem_getLast?_eq_getLast hm
  rw [heq]
  exact List.getLast_mem hne

theorem decDigit_isDigit (d : Nat) : (decDigit d).isDigit = true := by
  unfold decDigit
  split <;> decide

theorem decDigit_toNat (d : Nat) (h : d < 10) : (decDigit d).toNat = 48 + d := by
  interval_cases d <;> decide

theorem digitsVal_append_digit (xs : Str) (c : Char) :
    digitsVal (xs ++ [c]) = digitsVal xs * 10 + (c.toNat - 48) := by
  unfold digitsVal
  rw [List.foldl_append]
  rfl

theorem natToDecAux_spec : ∀ (fuel n : Nat), n < fuel →
    natToDecAux fuel n ≠ [] ∧ (∀ c ∈ natToDecAux fuel n, c.isDigit = true) ∧
    digitsVal (natToDecAux fuel n) = n := by
  intro fuel
  induction fuel with
  | zero => intro n h; exact absurd h (Nat.not_lt_zero n)
  | succ fuel ih =>
    intro n h
    by_cases h10 : n < 10
    · simp only [natToDecAux, if_pos h10]
      refine ⟨by simp, ?_, ?_⟩
      · intro c hc
        rw [List.mem_singleton] at hc
        rw [hc]
        exact decDigit_isDigit n
      · show digitsVal ([] ++ [decDigit n]) = n
        rw [digitsVal_append_digit, decDigit_toNat n h10]
        simp [digitsVal]
    · simp only [natToDecAux, if_neg h10]
      have hdl : n / 10 < fuel := by
        have h1 : n / 10 < n := Nat.div_lt_self (by omega) (by omega)
        omega
      obtain ⟨hne, hdig, hval⟩ := ih (n / 10) hdl
      refine ⟨by simp [hne], ?_, ?_⟩
      · intro c hc
        rcases List.mem_append.mp hc with hc | hc
        · exact hdig c hc
        · rw [List.mem_singleton] at hc
          rw [hc]
          exact decDigit_isDigit (n % 10)
      · rw [digitsVal_append_digit, hval, decDigit_toNat (n % 10) (Nat.mod_lt n (by omega))]
        have he : 48 + n % 10 - 48 = n % 10 := by omega
        rw [he]
        omega

theorem natToDec_spec (n : Nat) :
    natToDec n ≠ [] ∧ (∀ c ∈ natToDec n, c.isDigit = true) ∧
    digitsVal (natToDec n) = n :=
  natToDecAux_spec (n + 1) n (Nat.lt_succ_self n)

theorem isDigit_ne_plus (c : Char) (h : c.isDigit = true) : ¬c = '+' := by
  intro heq
  rw [heq] at h
  exact absurd h (by decide)

theorem isDigit_ne_tab (c : Char) (h : c.isDigit = true) : ¬c = '\t' := by
  intro heq
  rw [heq] at h
  exact absurd h (by decide)

theorem isDigit_not_ws (c : Char) (h : c.isDigit = true) : c.isWhitespace = false := by
  by_contra hw
  rw [Bool.not_eq_false] at hw
  simp only [Char.isWhitespace, Bool.or_eq_true, decide_eq_true_eq] at hw
  rcases hw with ((h1 | h1) | h1) | h1 <;> (rw [h1] at h; exact absurd h (by decide))

theorem natToDec_no_tab (n : Nat) : '\t' ∉ natToDec n := by
  intro hm
  exact isDigit_ne_tab '\t' ((natToDec_spec n).2.1 '\t' hm) rfl

theorem parse_natToDec (n : Nat) (h : n < 2 ^ 64) : parseU64 (natToDec n) = some n := by
  obtain ⟨hne, hdig, hval⟩ := natToDec_spec n
  unfold parseU64
  have hplus : ¬(natToDec n).headD ' ' = '+' := by
    cases hd : natToDec n with
    | nil => exact absurd hd hne
    | cons c rest =>
      rw [List.headD_cons]
      exact isDigit_ne_plus c (hdig c (hd ▸ List.mem_cons_self c rest))
  simp only [if_neg hplus]
  rw [if_pos ⟨hne, List.all_eq_true.mpr (fun c hc => hdig c hc)⟩, hval, if_pos h]

theorem optMap_map (f : β → Option γ) (g : α → β) :
    ∀ l : List α, optMap f (l.map g) = optMap (fun x => f (g x)) l := by
  intro l
  induction l with
  | nil => rfl
  | cons a l ih => simp only [List.map_cons, optMap, ih]

theorem optMap_id_of (f : α → Option α) :
    ∀ l : List α, (∀ a ∈ l, f a = some a) → optMap f l = some l := by
  intro l
  induction l with
  | nil => intro _; rfl
  | cons a l ih =>
    intro h
    simp only [optMap, h a (List.mem_cons_self a l),
      ih (fun b hb => h b (List.mem_cons_of_mem a hb))]

theorem optMap_length (f : α → Option β) :
    ∀ (l : List α) (r : List β), optMap f l = some r → r.length = l.length := by
  intro l
  induction l with
  | nil => intro r h; cases h; rfl
  | cons a l ih =>
    intro r h
    simp only [optMap] at h
    cases hf : f a with
    | none => rw [hf] at h; exact Option.noConfusion h
    | some b =>
      rw [hf] at h
      cases ho : optMap f l with
      | none => rw [ho] at h; exact Option.noConfusion h
      | some bs =>
        rw [ho] at h
        cases h
        simp [ih bs ho]

theorem optMap_mem (f : α → Option β) :
    ∀ (l : List α) (r : List β), optMap f l = some r →
      ∀ b ∈ r, ∃ a ∈ l, f a = some b := by
  intro l
  induction l with
  | nil => intro r h b hb; cases h; cases hb
  | cons a l ih =>
    intro r h b hb
    simp only [optMap] at h
    cases hf : f a with
    | none => rw [hf] at h; exact Option.noConfusion h
    | some b0 =>
      rw [hf] at h
      cases ho : optMap f l with
      | none => rw [ho] at h; exact Option.noConfusion h
      | some bs =>
        rw [ho] at h
        cases h
        rcases List.mem_cons.mp hb with rfl | hb
        · exact ⟨a, List.mem_cons_self a l, hf⟩
        · obtain ⟨a2, ha2, hf2⟩ := ih bs ho b hb
          exact ⟨a2, List.mem_cons_of_mem a ha2, hf2⟩

theorem pushMeta_none :
    ∀ (ss : List Sample) (cs : List Nat), ss.length < cs.length →
      pushMeta ss cs = none := by
  intro ss cs
  induction cs generalizing ss with
  | nil => intro h; simp at h
  | cons c cs ih =>
    intro h
    cases ss with
    | nil => rfl
    | cons s ss =>
      simp only [pushMeta, ih ss (Nat.lt_of_succ_lt_succ h)]

theorem parseU64_lt (s : Str) (v : Nat) (h : parseU64 s = some v) : v < 2 ^ 64 := by
  unfold parseU64 at h
  by_cases hp : s.headD ' ' = '+' <;> simp only [hp, if_pos, if_neg, if_true, if_false] at h
  all_goals
    split at h
    · split at h
      · cases h; assumption
      · exact Option.noConfusion h
    · exact Option.noConfusion h

theorem countsOf_lt (line : Str) (cs : List Nat) (h : countsOf line = some cs) :
    ∀ c ∈ cs, c < 2 ^ 64 := by
  intro c hc
  obtain ⟨f, _, hf⟩ := optMap_mem parseU64 _ cs h c hc
  exact parseU64_lt f c hf

theorem processLine_counts_le (cfg : Config) (st : St) (line : Str) (st' : St)
    (h : processLine cfg st line = some st') :
    ∀ cs, countsOf line = some cs → cs.length ≤ st.samples.length := by
  intro cs hc
  by_contra hgt
  rw [Nat.not_le] at hgt
  simp only [processLine, hc] at h
  by_cases hm : startsWithMarker (geneOf line) = true
  · rw [if_pos hm, pushMeta_none st.samples cs hgt] at h
    exact Option.noConfusion h
  · rw [if_neg hm, updTotals_none cfg.expression_threshold st.samples cs hgt] at h
    exact Option.noConfusion h

theorem runList_counts_ok (cfg : Config) :
    ∀ (ls : List Str) (st st' : St), runList cfg st ls = some st' →
      ∀ l ∈ ls, ∀ cs, countsOf l = some cs → cs.length ≤ st.samples.length := by
  intro ls
  induction ls with
  | nil => intro st st' _ l hl; cases hl
  | cons l0 ls ih =>
    intro st st' h l hl cs hc
    simp only [runList] at h
    cases hp : processLine cfg st l0 with
    | none => simp only [hp] at h; exact Option.noConfusion h
    | some st1 =>
      simp only [hp] at h
      rcases List.mem_cons.mp hl with rfl | hl
      · exact processLine_counts_le cfg st l st1 hp cs hc
      · rw [← processLine_samples_length cfg st l0 st1 hp]
        exact ih st1 st' h l hl cs hc

theorem runList_samples_length (cfg : Config) (ls : List Str) (st st' : St)
    (h : runList cfg st ls = some st') :
    st'.samples.length = st.samples.length := by
  have h5 := (runList_char cfg ls st st' h).2.2.2.2
  have := congrArg List.length h5
  simpa using this

theorem metacounts_pred_transfer (P : List Nat → Prop) (ss r : List Sample)
    (h : r.map (·.metacounts) = ss.map (·.metacounts))
    (hs : ∀ s ∈ ss, P s.metacounts) : ∀ s ∈ r, P s.metacounts := by
  intro s hsr
  have hmem : s.metacounts ∈ r.map (·.metacounts) := List.mem_map_of_mem _ hsr
  rw [h] at hmem
  obtain ⟨u, hu, he⟩ := List.mem_map.mp hmem
  rw [← he]
  exact hs u hu

theorem pushMeta_bound (B : Nat) :
    ∀ (ss : List Sample) (cs : List Nat) (r : List Sample),
      pushMeta ss cs = some r →
      (∀ s ∈ ss, ∀ c ∈ s.metacounts, c < B) → (∀ c ∈ cs, c < B) →
      ∀ s ∈ r, ∀ c ∈ s.metacounts, c < B := by
  intro ss cs
  induction cs generalizing ss with
  | nil => intro r h hs _; rw [pushMeta_nil] at h; cases h; exact hs
  | cons c cs ih =>
    intro r h hs hcs
    cases ss with
    | nil => simp [pushMeta] at h
    | cons s ss =>
      simp only [pushMeta] at h
      cases h' : pushMeta ss cs with
      | none => rw [h'] at h; exact Option.noConfusion h
      | some r' =>
        rw [h'] at h; cases h
        intro t ht
        rcases List.mem_cons.mp ht with rfl | ht
        · intro x hx
          simp only [bumpMeta] at hx
          rcases List.mem_append.mp hx with hx | hx
          · exact hs s (List.mem_cons_self s ss) x hx
          · rw [List.mem_singleton] at hx
            rw [hx]
            exact hcs c (List.mem_cons_self c cs)
        · exact ih ss r' h' (fun u hu => hs u (List.mem_cons_of_mem _ hu))
            (fun x hx => hcs x (List.mem_cons_of_mem _ hx)) t ht

theorem processLine_bound (cfg : Config) (st : St) (line : Str) (st' : St)
    (h : processLine cfg st line = some st')
    (hs : ∀ s ∈ st.samples, ∀ c ∈ s.metacounts, c < 2 ^ 64) :
    ∀ s ∈ st'.samples, ∀ c ∈ s.metacounts, c < 2 ^ 64 := by
  simp only [processLine] at h
  cases hc : countsOf line with
  | none => rw [hc] at h; cases h; exact hs
  | some counts =>
    simp only [hc] at h
    by_cases hm : startsWithMarker (geneOf line) = true
    · rw [if_pos hm] at h
      cases hp : pushMeta st.samples counts with
      | none => simp only [hp] at h; exact Option.noConfusion h
      | some ss =>
        simp only [hp] at h; cases h
        exact pushMeta_bound (2 ^ 64) st.samples counts ss hp hs
          (countsOf_lt line counts hc)
    · rw [if_neg hm] at h
      cases ht : updTotals cfg.expression_threshold st.samples counts with
      | none => simp only [ht] at h; exact Option.noConfusion h
      | some ss1 =>
        simp only [ht] at h
        by_cases hf : geneFiltered cfg counts = true
        · rw [if_pos hf] at h; cases h
          exact metacounts_pred_transfer (fun m => ∀ c ∈ m, c < 2 ^ 64) st.samples ss1
            (updTotals_map_metacounts _ _ _ _ ht) hs
        · rw [if_neg hf] at h
          cases hq : updPassed cfg.expression_threshold ss1 counts with
          | none => simp only [hq] at h; exact Option.noConfusion h
          | some ss2 =>
            simp only [hq] at h; cases h
            exact metacounts_pred_transfer (fun m => ∀ c ∈ m, c < 2 ^ 64) ss1 ss2
              (updPassed_map_metacounts _ _ _ _ hq)
              (metacounts_pred_transfer (fun m => ∀ c ∈ m, c < 2 ^ 64) st.samples ss1
                (updTotals_map_metacounts _ _ _ _ ht) hs)

theorem runList_bound (cfg : Config) :
    ∀ (ls : List Str) (st st' : St), runList cfg st ls = some st' →
      (∀ s ∈ st.samples, ∀ c ∈ s.metacounts, c < 2 ^ 64) →
      ∀ s ∈ st'.samples, ∀ c ∈ s.metacounts, c < 2 ^ 64 := by
  intro ls
  induction ls with
  | nil => intro st st' h hs; cases h; exact hs
  | cons l ls ih =>
    intro st st' h hs
    simp only [runList] at h
    cases hp : processLine cfg st l with
    | none => simp only [hp] at h; exact Option.noConfusion h
    | some st1 =>
      simp only [hp] at h
      exact ih st1 st' h (processLine_bound cfg st l st1 hp hs)

theorem pushMeta_len_succ :
    ∀ (ss : List Sample) (cs : List Nat) (r : List Sample),
      pushMeta ss cs = some r →
      ∀ s' ∈ r, ∃ s ∈ ss, s'.metacounts.length ≤ s.metacounts.length + 1 := by
  intro ss cs
  induction cs generalizing ss with
  | nil =>
    intro r h s' hs'
    rw [pushMeta_nil] at h; cases h
    exact ⟨s', hs', Nat.le_succ _⟩
  | cons c cs ih =>
    intro r h s' hs'
    cases ss with
    | nil => simp [pushMeta] at h
    | cons s ss =>
      simp only [pushMeta] at h
      cases h' : pushMeta ss cs with
      | none => rw [h'] at h; exact Option.noConfusion h
      | some r' =>
        rw [h'] at h; cases h
        rcases List.mem_cons.mp hs' with rfl | hs'
        · exact ⟨s, List.mem_cons_self s ss, by simp [bumpMeta]⟩
        · obtain ⟨u, hu, hle⟩ := ih ss r' h' s' hs'
          exact ⟨u, List.mem_cons_of_mem _ hu, hle⟩

theorem processLine_meta_len (cfg : Config) (st : St) (line : Str) (st' : St)
    (h : processLine cfg st line = some st')
    (hs : ∀ s ∈ st.samples, s.metacounts.length ≤ st.metacount_names.length) :
    ∀ s ∈ st'.samples, s.metacounts.length ≤ st'.metacount_names.length := by
  have hn := (processLine_some cfg st line st' h).2.2.2.1
  simp only [processLine] at h
  cases hc : countsOf line with
  | none =>
    rw [hc] at h; cases h; exact hs
  | some counts =>
    simp only [hc] at h
    by_cases hm : startsWithMarker (geneOf line) = true
    · rw [if_pos hm] at h
      cases hp : pushMeta st.samples counts with
      | none => simp only [hp] at h; exact Option.noConfusion h
      | some ss =>
        simp only [hp] at h; cases h
        intro s' hs'
        obtain ⟨u, hu, hle⟩ := pushMeta_len_succ st.samples counts ss hp s' hs'
        simp only [List.length_append, List.length_cons, List.length_nil]
        calc s'.metacounts.length ≤ u.metacounts.length + 1 := hle
          _ ≤ st.metacount_names.length + 1 := Nat.add_le_add_right (hs u hu) 1
          _ = st.metacount_names.length + (0 + 1) := by omega
    · rw [if_neg hm] at h
      cases ht : updTotals cfg.expression_threshold st.samples counts with
      | none => simp only [ht] at h; exact Option.noConfusion h
      | some ss1 =>
        simp only [ht] at h
        by_cases hf : geneFiltered cfg counts = true
        · rw [if_pos hf] at h; cases h
          exact metacounts_pred_transfer
            (fun m => m.length ≤ st.metacount_names.length) st.samples ss1
            (updTotals_map_metacounts _ _ _ _ ht) hs
        · rw [if_neg hf] at h
          cases hq : updPassed cfg.expression_threshold ss1 counts with
          | none => simp only [hq] at h; exact Option.noConfusion h
          | some ss2 =>
            simp only [hq] at h; cases h
            exact metacounts_pred_transfer
              (fun m => m.length ≤ st.metacount_names.length) ss1 ss2
              (updPassed_map_metacounts _ _ _ _ hq)
              (metacounts_pred_transfer
                (fun m => m.length ≤ st.metacount_names.length) st.samples ss1
                (updTotals_map_metacounts _ _ _ _ ht) hs)

theorem runList_meta_len (cfg : Config) :
    ∀ (ls : List Str) (st st' : St), runList cfg st ls = some st' →
      (∀ s ∈ st.samples, s.metacounts.length ≤ st.metacount_names.length) →
      ∀ s ∈ st'.samples, s.metacounts.length ≤ st'.metacount_names.length := by
  intro ls
  induction ls with
  | nil => intro st st' h hs; cases h; exact hs
  | cons l ls ih =>
    intro st st' h hs
    simp only [runList] at h
    cases hp : processLine cfg st l with
    | none => simp only [hp] at h; exact Option.noConfusion h
    | some st1 =>
      simp only [hp] at h
      exact ih st1 st' h (processLine_meta_len cfg st l st1 hp hs)

theorem marker_shape (nm : Str) (h : startsWithMarker nm = true) :
    ∃ r, nm = '_' :: '_' :: r := by
  unfold startsWithMarker at h
  cases nm with
  | nil => exact Bool.noConfusion h
  | cons c1 t =>
    cases t with
    | nil => exact Bool.noConfusion h
    | cons c2 r =>
      simp only [Bool.and_eq_true, decide_eq_true_eq] at h
      exact ⟨r, by rw [h.1, h.2]⟩

theorem fieldsOf_ne_nil (line : Str) : fieldsOf line ≠ [] :=
  splitTab_ne_nil (rustTrim line)

theorem geneOf_mem_fields (line : Str) : geneOf line ∈ fieldsOf line := by
  unfold geneOf
  cases h : fieldsOf line with
  | nil => exact absurd h (fieldsOf_ne_nil line)
  | cons f rest => exact List.mem_cons_self f rest

theorem geneOf_no_tab (line : Str) : '\t' ∉ geneOf line :=
  splitTab_mem_no_tab (rustTrim line) (geneOf line) (geneOf_mem_fields line)

theorem countsOf_nil_trim (line : Str) (h : countsOf line = some []) :
    rustTrim line = geneOf line := by
  unfold countsOf at h
  have hlen := optMap_length parseU64 _ _ h
  have hdrop : (fieldsOf line).drop 1 = [] :=
    List.eq_nil_of_length_eq_zero hlen.symm
  cases hf : fieldsOf line with
  | nil => exact absurd hf (fieldsOf_ne_nil line)
  | cons f rest =>
    rw [hf] at hdrop
    simp only [List.drop_one, List.tail_cons] at hdrop
    subst hdrop
    have := splitTab_singleton (rustTrim line) f hf
    rw [this]
    unfold geneOf
    rw [hf]
    rfl

theorem metaNameOf_facts (line : Str) (nm : Str) (h : metaNameOf line = some nm) :
    startsWithMarker nm = true ∧ '\t' ∉ nm ∧
    ∃ cs, countsOf line = some cs ∧ (cs = [] → rustTrim nm = nm) := by
  unfold metaNameOf at h
  cases hc : countsOf line with
  | none => rw [hc] at h; exact Option.noConfusion h
  | some cs =>
    simp only [hc] at h
    by_cases hm : startsWithMarker (geneOf line) = true
    · rw [if_pos hm] at h
      cases h
      refine ⟨hm, geneOf_no_tab line, cs, rfl, ?_⟩
      intro hnil
      subst hnil
      rw [← countsOf_nil_trim line hc, rustTrim_idem]
    · rw [if_neg hm] at h
      exact Option.noConfusion h

theorem emittedLine_elim (cfg : Config) (line out : Str)
    (h : emittedLine cfg line = some out) :
    out = rustTrim line ∧
    ∃ cs, countsOf line = some cs ∧ startsWithMarker (geneOf line) = false ∧
      geneFiltered cfg cs = false := by
  unfold emittedLine at h
  cases hc : countsOf line with
  | none => rw [hc] at h; exact Option.noConfusion h
  | some cs =>
    simp only [hc] at h
    by_cases hm : startsWithMarker (geneOf line) = true
    · rw [if_pos hm] at h; exact Option.noConfusion h
    · rw [if_neg hm] at h
      by_cases hf : geneFiltered cfg cs = true
      · rw [if_pos hf] at h; exact Option.noConfusion h
      · rw [if_neg hf] at h
        cases h
        exact ⟨rfl, cs, rfl, Bool.eq_false_iff.mpr hm, Bool.eq_false_iff.mpr hf⟩

theorem fieldsOf_trim (line : Str) : fieldsOf (rustTrim line) = fieldsOf line := by
  unfold fieldsOf
  rw [rustTrim_idem]

theorem emittedLine_idem (cfg : Config) (line out : Str)
    (h : emittedLine cfg line = some out) : emittedLine cfg out = some out := by
  obtain ⟨rfl, cs, hc, hm, hf⟩ := emittedLine_elim cfg line out h
  have hfields : fieldsOf (rustTrim line) = fieldsOf line := fieldsOf_trim line
  have hc2 : countsOf (rustTrim line) = some cs := by
    unfold countsOf
    rw [hfields]
    exact hc
  have hg2 : geneOf (rustTrim line) = geneOf line := by
    unfold geneOf
    rw [hfields]
  unfold emittedLine
  rw [hc2]
  simp only [hg2, hm, hf, Bool.false_eq_true, if_false, rustTrim_idem]

theorem countsOf_trim (line : Str) : countsOf (rustTrim line) = countsOf line := by
  unfold countsOf
  rw [fieldsOf_trim]

theorem metaNameOf_emitted (cfg : Config) (line out : Str)
    (h : emittedLine cfg line = some out) : metaNameOf out = none := by
  obtain ⟨rfl, cs, hc, hm, _⟩ := emittedLine_elim cfg line out h
  unfold metaNameOf
  rw [countsOf_trim line, hc]
  have hg2 : geneOf (rustTrim line) = geneOf line := by
    unfold geneOf
    rw [fieldsOf_trim]
  simp [hg2, hm]

theorem runList_ordinary (cfg : Config) :
    ∀ (ps : List Str) (st : St),
      (∀ l ∈ ps, emittedLine cfg l = some l) →
      (∀ l ∈ ps, ∀ cs, countsOf l = some cs → cs.length ≤ st.samples.length) →
      ∃ st', runList cfg st ps = some st' ∧
        st'.mainOut = st.mainOut ++ ps ∧
        st'.metacount_names = st.metacount_names ∧
        st'.samples.map (·.metacounts) = st.samples.map (·.metacounts) ∧
        st'.samples.length = st.samples.length := by
  intro ps
  induction ps with
  | nil => intro st _ _; exact ⟨st, rfl, by simp, rfl, rfl, rfl⟩
  | cons l ps ih =>
    intro st hemit hlen
    obtain ⟨heq, cs, hc, hm, hf⟩ :=
      emittedLine_elim cfg l l (hemit l (List.mem_cons_self l ps))
    obtain ⟨ss1, ht, hl1⟩ := updTotals_some cfg.expression_threshold st.samples cs
      (hlen l (List.mem_cons_self l ps) cs hc)
    obtain ⟨ss2, hq, hl2⟩ := updPassed_some cfg.expression_threshold ss1 cs
      (hl1 ▸ hlen l (List.mem_cons_self l ps) cs hc)
    have hp : processLine cfg st l = some { st with samples := ss2, total_genes := st.total_genes + 1, passed_genes := st.passed_genes + 1, mainOut := st.mainOut ++ [rustTrim l] } := by
      simp only [processLine, hc, hm, ht, hf, hq, Bool.false_eq_true, if_false]
    set st1 : St := { st with samples := ss2, total_genes := st.total_genes + 1, passed_genes := st.passed_genes + 1, mainOut := st.mainOut ++ [rustTrim l] } with hst1
    have hmc1 : st1.samples.map (·.metacounts) = st.samples.map (·.metacounts) := by
      show ss2.map (·.metacounts) = st.samples.map (·.metacounts)
      rw [updPassed_map_metacounts _ _ _ _ hq, updTotals_map_metacounts _ _ _ _ ht]
    have hsl1 : st1.samples.length = st.samples.length := by
      show ss2.length = st.samples.length
      rw [hl2, hl1]
    obtain ⟨st', hrun, hmo, hnm, hmc, hsl⟩ := ih st1
      (fun x hx => hemit x (List.mem_cons_of_mem l hx))
      (fun x hx cs2 hc2 => hsl1 ▸ hlen x (List.mem_cons_of_mem l hx) cs2 hc2)
    refine ⟨st', ?_, ?_, ?_, ?_, ?_⟩
    · simp only [runList, hp]
      exact hrun
    · rw [hmo]
      show st.mainOut ++ [rustTrim l] ++ ps = st.mainOut ++ l :: ps
      rw [← heq]
      simp
    · exact hnm
    · rw [hmc]
      exact hmc1
    · rw [hsl]
      exact hsl1

theorem map_metacounts_zipBump :
    ∀ (ss : List Sample) (cs : List Nat),
      (List.zipWith bumpMeta ss cs).map (·.metacounts) =
        List.zipWith (fun m c => m ++ [c]) (ss.map (·.metacounts)) cs := by
  intro ss
  induction ss with
  | nil => intro cs; rfl
  | cons s ss ih =>
    intro cs
    cases cs with
    | nil => rfl
    | cons c cs => simp only [List.zipWith_cons_cons, List.map_cons, ih, bumpMeta]

theorem zip_take_succ :
    ∀ (mss : List (List Nat)) (cs : List Nat) (i : Nat),
      optMap (fun m => m.get? i) mss = some cs →
      List.zipWith (fun m c => m ++ [c]) (mss.map (List.take i)) cs =
        mss.map (List.take (i + 1)) := by
  intro mss
  induction mss with
  | nil =>
    intro cs i h
    cases h
    rfl
  | cons m mss ih =>
    intro cs i h
    simp only [optMap] at h
    cases hg : m.get? i with
    | none => rw [hg] at h; exact Option.noConfusion h
    | some c =>
      rw [hg] at h
      cases ho : optMap (fun m => m.get? i) mss with
      | none => rw [ho] at h; exact Option.noConfusion h
      | some cs' =>
        rw [ho] at h
        cases h
        simp only [List.map_cons, List.zipWith_cons_cons, ih cs' i ho]
        congr 1
        rw [List.take_succ, ← List.get?_eq_getElem?, hg]
        rfl

theorem metaRowsAux_congr (cfg : Config) (samples samples2 : List Sample)
    (h : samples.map (·.metacounts) = samples2.map (·.metacounts)) :
    ∀ (names : List Str) (i : Nat),
      metaRowsAux cfg samples i names = metaRowsAux cfg samples2 i names := by
  intro names
  induction names with
  | nil => intro i; rfl
  | cons nm names ih =>
    intro i
    have hcol : optMap (fun s => s.metacounts.get? i) samples =
        optMap (fun s => s.metacounts.get? i) samples2 := by
      rw [← optMap_map (fun m => m.get? i) (·.metacounts) samples,
          ← optMap_map (fun m => m.get? i) (·.metacounts) samples2, h]
    simp only [metaRowsAux, hcol, ih (i + 1)]

theorem joinTab_ne_nil :
    ∀ (pieces : List Str), pieces ≠ [] → (∀ p ∈ pieces, p ≠ []) →
      joinTab pieces ≠ [] := by
  intro pieces hne hp
  cases pieces with
  | nil => exact absurd rfl hne
  | cons f rest =>
    cases rest with
    | nil => exact hp f (List.mem_cons_self f [])
    | cons g rest2 =>
      show f ++ '\t' :: joinTab (g :: rest2) ≠ []
      simp

theorem joinTab_getLast_digit :
    ∀ (pieces : List Str), pieces ≠ [] →
      (∀ p ∈ pieces, p ≠ [] ∧ ∀ c ∈ p, c.isDigit = true) →
      ∀ c, (joinTab pieces).getLast? = some c → c.isDigit = true := by
  intro pieces
  induction pieces with
  | nil => intro h; exact absurd rfl h
  | cons f rest ih =>
    intro _ hall c hc
    cases rest with
    | nil =>
      have : joinTab [f] = f := rfl
      rw [this] at hc
      exact (hall f (List.mem_cons_self f [])).2 c (getLast?_mem_self f c hc)
    | cons g rest2 =>
      have hj : joinTab (f :: g :: rest2) = f ++ '\t' :: joinTab (g :: rest2) := rfl
      rw [hj, List.getLast?_append] at hc
      have hne2 : joinTab (g :: rest2) ≠ [] :=
        joinTab_ne_nil (g :: rest2) (by simp)
          (fun p hp => (hall p (List.mem_cons_of_mem f hp)).1)
      cases hg : joinTab (g :: rest2) with
      | nil => exact absurd hg hne2
      | cons j js =>
        have hl : ('\t' :: joinTab (g :: rest2)).getLast? =
            (joinTab (g :: rest2)).getLast? := by
          rw [hg]
          exact List.getLast?_cons_cons
        rw [hl] at hc
        obtain ⟨d, hd⟩ : ∃ d, (joinTab (g :: rest2)).getLast? = some d := by
          rw [hg]
          exact ⟨(j :: js).getLast (by simp), List.getLast?_eq_getLast_of_ne_nil (by simp)⟩
        rw [hd] at hc
        simp only [Option.or_some] at hc
        cases hc
        exact ih (by simp) (fun p hp => hall p (List.mem_cons_of_mem f hp)) c
          (by rw [hd])

theorem metaLine_parse (nm : Str) (cs : List Nat)
    (hmk : startsWithMarker nm = true) (htab : '\t' ∉ nm)
    (hb : ∀ c ∈ cs, c < 2 ^ 64)
    (hnil : cs = [] → rustTrim nm = nm) :
    geneOf (nm ++ '\t' :: joinTab (cs.map natToDec)) = nm ∧
    countsOf (nm ++ '\t' :: joinTab (cs.map natToDec)) = some cs := by
  cases cs with
  | nil =>
    simp only [List.map_nil]
    have htr : rustTrim (nm ++ '\t' :: joinTab ([] : List Str)) = nm := by
      show rustTrim (nm ++ ['\t']) = nm
      rw [rustTrim_append_ws nm ['\t'] (by intro c hc; rw [List.mem_singleton] at hc; rw [hc]; rfl)]
      exact hnil rfl
    have hfields : fieldsOf (nm ++ '\t' :: joinTab ([] : List Str)) = [nm] := by
      unfold fieldsOf
      rw [htr]
      exact splitTab_of_no_tab nm htab
    constructor
    · unfold geneOf
      rw [hfields]
      rfl
    · unfold countsOf
      rw [hfields]
      rfl
  | cons c0 cs' =>
    set pieces : List Str := (c0 :: cs').map natToDec with hpieces
    have hpne : pieces ≠ [] := by simp [hpieces]
    have hpall : ∀ p ∈ pieces, p ≠ [] ∧ ∀ c ∈ p, c.isDigit = true := by
      intro p hp
      rw [hpieces] at hp
      obtain ⟨v, _, rfl⟩ := List.mem_map.mp hp
      exact ⟨(natToDec_spec v).1, (natToDec_spec v).2.1⟩
    have hptab : ∀ p ∈ pieces, '\t' ∉ p := by
      intro p hp
      rw [hpieces] at hp
      obtain ⟨v, _, rfl⟩ := List.mem_map.mp hp
      exact natToDec_no_tab v
    have hjne : joinTab pieces ≠ [] :=
      joinTab_ne_nil pieces hpne (fun p hp => (hpall p hp).1)
    obtain ⟨r, hr⟩ := marker_shape nm hmk
    have htr : rustTrim (nm ++ '\t' :: joinTab pieces) = nm ++ '\t' :: joinTab pieces := by
      refine rustTrim_eq_self _ ?_ ?_
      · intro c hc
        rw [hr] at hc
        simp only [List.cons_append, List.head?_cons] at hc
        cases hc
        rfl
      · intro c hc
        rw [List.getLast?_append] at hc
        cases hj : joinTab pieces with
        | nil => exact absurd hj hjne
        | cons j js =>
          have hl : ('\t' :: joinTab pieces).getLast? = (joinTab pieces).getLast? := by
            rw [hj]
            exact List.getLast?_cons_cons
          obtain ⟨d, hd⟩ : ∃ d, (joinTab pieces).getLast? = some d := by
            rw [hj]
            exact ⟨(j :: js).getLast (by simp), List.getLast?_eq_getLast_of_ne_nil (by simp)⟩
          rw [hl, hd] at hc
          simp only [Option.or_some] at hc
          cases hc
          exact isDigit_not_ws c
            (joinTab_getLast_digit pieces hpne hpall c (by rw [hd]))
    have hsplit : splitTab (nm ++ '\t' :: joinTab pieces) = nm :: pieces := by
      obtain ⟨f, rest, hs, happ⟩ :=
        splitTab_no_tab_append nm ('\t' :: joinTab pieces) htab
      rw [splitTab_tab_cons, splitTab_joinTab pieces hpne hptab] at hs
      cases hs
      simpa using happ
    have hfields : fieldsOf (nm ++ '\t' :: joinTab pieces) = nm :: pieces := by
      unfold fieldsOf
      rw [htr]
      exact hsplit
    constructor
    · unfold geneOf
      rw [hfields]
      rfl
    · unfold countsOf
      rw [hfields]
      show optMap parseU64 pieces = some (c0 :: cs')
      rw [hpieces, optMap_map]
      exact optMap_id_of _ (c0 :: cs') (fun v hv => parse_natToDec v (hb v hv))

theorem runList_names_good (cfg : Config) (ls : List Str) (st st' : St)
    (h : runList cfg st ls = some st')
    (hbase : ∀ nm ∈ st.metacount_names, startsWithMarker nm = true ∧ '\t' ∉ nm ∧
      (st.samples.length = 0 → rustTrim nm = nm)) :
    ∀ nm ∈ st'.metacount_names, startsWithMarker nm = true ∧ '\t' ∉ nm ∧
      (st.samples.length = 0 → rustTrim nm = nm) := by
  have hnames := (runList_char cfg ls st st' h).2.2.2.1
  intro nm hnm
  rw [hnames] at hnm
  rcases List.mem_append.mp hnm with hnm | hnm
  · exact hbase nm hnm
  · obtain ⟨l, hl, hml⟩ := List.mem_filterMap.mp hnm
    obtain ⟨hmk, htab, cs, hcs, hnil⟩ := metaNameOf_facts l nm hml
    refine ⟨hmk, htab, ?_⟩
    intro hS0
    refine hnil (List.eq_nil_of_length_eq_zero ?_)
    have := runList_counts_ok cfg ls st st' h l hl cs hcs
    omega

theorem ingest (cfg : Config) (hsep : cfg.separate_metacounts = false)
    (ssRef : List Sample) :
    ∀ (names : List Str) (i : Nat) (rows : List Str) (st2 : St),
      metaRowsAux cfg ssRef i names = some rows →
      (∀ nm ∈ names, startsWithMarker nm = true ∧ '\t' ∉ nm ∧
        (ssRef.length = 0 → rustTrim nm = nm)) →
      (∀ s ∈ ssRef, ∀ c ∈ s.metacounts, c < 2 ^ 64) →
      st2.samples.length = ssRef.length →
      st2.samples.map (·.metacounts) =
        (ssRef.map (·.metacounts)).map (List.take i) →
      ∃ st2', runList cfg st2 rows = some st2' ∧
        st2'.metacount_names = st2.metacount_names ++ names ∧
        st2'.mainOut = st2.mainOut ∧
        st2'.samples.length = st2.samples.length ∧
        st2'.samples.map (·.metacounts) =
          (ssRef.map (·.metacounts)).map (List.take (i + names.length)) := by
  intro names
  induction names with
  | nil =>
    intro i rows st2 hrows _ _ hlen hmc
    cases hrows
    exact ⟨st2, rfl, by simp, rfl, rfl, by simpa using hmc⟩
  | cons nm names ih =>
    intro i rows st2 hrows hgood hbound hlen hmc
    simp only [metaRowsAux] at hrows
    cases hcol : optMap (fun s => s.metacounts.get? i) ssRef with
    | none => rw [hcol] at hrows; exact Option.noConfusion hrows
    | some cs =>
      rw [hcol] at hrows
      cases hrest : metaRowsAux cfg ssRef (i + 1) names with
      | none => rw [hrest] at hrows; exact Option.noConfusion hrows
      | some rest =>
        rw [hrest] at hrows
        cases hrows
        have hcslen : cs.length = ssRef.length := optMap_length _ _ _ hcol
        have hcsb : ∀ c ∈ cs, c < 2 ^ 64 := by
          intro c hc
          obtain ⟨u, hu, hgu⟩ := optMap_mem _ _ _ hcol c hc
          exact hbound u hu c (List.get?_mem hgu)
        obtain ⟨hmk, htab, hnil0⟩ := hgood nm (List.mem_cons_self nm names)
        have hnm : dispName cfg nm = nm := by
          unfold dispName
          rw [hsep]
          rfl
        obtain ⟨hgene, hcounts⟩ := metaLine_parse nm cs hmk htab hcsb
          (fun hcsnil => hnil0 (by rw [← hcslen, hcsnil]; rfl))
        have hpz : pushMeta st2.samples cs =
            some (List.zipWith bumpMeta st2.samples cs) :=
          pushMeta_zip st2.samples cs (by rw [hcslen, hlen])
        have hproc : processLine cfg st2 (dispName cfg nm ++ '\t' :: joinTab (cs.map natToDec)) =
            some { st2 with samples := List.zipWith bumpMeta st2.samples cs, metacount_names := st2.metacount_names ++ [nm] } := by
          rw [hnm]
          simp only [processLine, hcounts, hgene, hmk, if_pos, hpz]
        have hmc1 : (List.zipWith bumpMeta st2.samples cs).map (·.metacounts) =
            (ssRef.map (·.metacounts)).map (List.take (i + 1)) := by
          rw [map_metacounts_zipBump, hmc]
          refine zip_take_succ (ssRef.map (·.metacounts)) cs i ?_
          rw [optMap_map]
          exact hcol
        have hlen1 : (List.zipWith bumpMeta st2.samples cs).length = ssRef.length := by
          rw [List.length_zipWith, hcslen, hlen]
          exact Nat.min_self _
        obtain ⟨st2', hrun', hn', hm', hl', hmc'⟩ := ih (i + 1) rest
          { st2 with samples := List.zipWith bumpMeta st2.samples cs, metacount_names := st2.metacount_names ++ [nm] }
          hrest (fun u hu => hgood u (List.mem_cons_of_mem nm hu)) hbound hlen1 hmc1
        refine ⟨st2', ?_, ?_, ?_, ?_, ?_⟩
        · simp only [runList, hproc]
          exact hrun'
        · rw [hn']
          simp
        · exact hm'
        · rw [hl']
          show (List.zipWith bumpMeta st2.samples cs).length = st2.samples.length
          rw [hlen1, hlen]
        · rw [hmc']
          have harith : i + 1 + names.length = i + (nm :: names).length := by
            simp only [List.length_cons]
            omega
          rw [harith]

/-!
Claim theorems.
-/

/-- Claim C1, counterexample: with two samples, the data row `g1<TAB>5` has only
one count field, yet it is not treated as malformed: it is counted in
`total_genes` and echoed to the main output, refuting the claim that a
field-count mismatch with `S` makes a row logged, skipped and excluded from
all counters and outputs. -/
theorem C1_counterexample :
    sampleCount "gene\tA\tB".toList = 2 ∧
    (fieldsOf "g1\t5".toList).length = 2 ∧
    runProgram cfgNone "gene\tA\tB".toList ["g1\t5".toList] =
      some (["gene\tA\tB".toList, "g1\t5".toList], none) ∧
    (runLines cfgNone "gene\tA\tB".toList ["g1\t5".toList]).map St.total_genes = some 1 := by
  decide

/-- Claim C2, counterexample: the row `__m<TAB>x` starts with the reserved
marker but has a non-numeric count field; the code parses counts before
inspecting the identifier, so the row is skipped as malformed — it is not
routed as a metafeature row (no metacount name is recorded and nothing is
written for it), refuting the claim. -/
theorem C2_counterexample :
    startsWithMarker (geneOf "__m\tx".toList) = true ∧
    countsOf "__m\tx".toList = none ∧
    runProgram cfgNone "gene\tA".toList ["__m\tx".toList] =
      some (["gene\tA".toList], none) ∧
    (runLines cfgNone "gene\tA".toList ["__m\tx".toList]).map St.metacount_names =
      some [] := by
  decide

/-- Claim C3, counterexample: (a) with the combined destination the metafeature
row `__m<TAB>07` is not written verbatim — it is re-serialized from the parsed
counts as `__m<TAB>7`; (b) with a separate destination the identifier `___x`
is written as `x`: `trim_start_matches('_')` strips every leading underscore,
not just the two-character marker (which would give `_x`). -/
theorem C3_counterexample :
    (runProgram cfgNone "gene\tA".toList ["__m\t07".toList] =
        some (["gene\tA".toList, "__m\t7".toList], none) ∧
      "__m\t07".toList ∉ ["gene\tA".toList, "__m\t7".toList]) ∧
    (runProgram cfgSep "gene\tA".toList ["___x\t1".toList] =
        some (["gene\tA".toList], some ["feature\tA".toList, "x\t1".toList]) ∧
      "_x\t1".toList ∉ ["feature\tA".toList, "x\t1".toList]) := by
  decide

/-- Claim C4, counterexample: with summary metacounts enabled and a separate
destination, the four synthetic rows are written immediately after the
metacount header and *before* the input-derived metafeature row `m<TAB>5`,
refuting the claim that they are appended after all input-derived rows. -/
theorem C4_counterexample :
    runProgram cfgSepSum "gene\tA".toList ["__m\t5".toList] =
      some (["gene\tA".toList],
        some (["feature\tA", "total_count\t0", "passed_count\t0",
               "total_expressed\t0", "passed_expressed\t0", "m\t5"].map String.toList)) ∧
    (["feature\tA", "total_count\t0", "passed_count\t0",
      "total_expressed\t0", "passed_expressed\t0", "m\t5"].map String.toList ≠
     ["feature\tA", "m\t5", "total_count\t0", "passed_count\t0",
      "total_expressed\t0", "passed_expressed\t0"].map String.toList) := by
  decide

/-- Claim C5, counterexample: with the combined destination, a metafeature row
that precedes an ordinary row in the input appears *after* it in the main
output (metafeature rows are buffered and written only after the pass), so the
main output rows are not in input order as claimed. -/
theorem C5_counterexample :
    runProgram cfgNone "gene\tA".toList ["__m\t1".toList, "g\t2".toList] =
      some (["gene\tA", "g\t2", "__m\t1"].map String.toList, none) ∧
    (["gene\tA", "g\t2", "__m\t1"].map String.toList ≠
     ["gene\tA", "__m\t1", "g\t2"].map String.toList) := by
  decide

/-- Claim C6, counterexample: with every predicate disabled,
`passed_genes = total_genes` does hold, but the main output is *not* the input
minus malformed rows: with a separate metacount destination the (well-formed)
metafeature row `__m<TAB>1` is absent from the main output. -/
theorem C6_counterexample :
    (runLines cfgSep "gene\tA".toList ["__m\t1".toList, "g\t2".toList]).map
        (fun st => (st.total_genes, st.passed_genes)) = some (1, 1) ∧
    runProgram cfgSep "gene\tA".toList ["__m\t1".toList, "g\t2".toList] =
      some (["gene\tA", "g\t2"].map String.toList,
            some (["feature\tA", "m\t1"].map String.toList)) ∧
    (["gene\tA", "g\t2"].map String.toList ≠
     ["gene\tA", "__m\t1", "g\t2"].map String.toList) := by
  decide

/-- Claim C9, counterexample: with summary metacounts enabled on the combined
destination, re-running the program on its own main output does not reproduce
it: the first run's synthetic `__…` summary rows are re-ingested as metafeature
rows and emitted again alongside the second run's fresh summary rows. -/
theorem C9_counterexample :
    runProgram cfgSum "gene\tA".toList ["g\t2".toList] =
      some (["gene\tA", "g\t2", "__total_count\t2", "__passed_count\t2",
             "__total_expressed\t1", "__passed_expressed\t1"].map String.toList, none) ∧
    runProgram cfgSum "gene\tA".toList
        (["g\t2", "__total_count\t2", "__passed_count\t2",
          "__total_expressed\t1", "__passed_expressed\t1"].map String.toList) =
      some (["gene\tA", "g\t2", "__total_count\t2", "__passed_count\t2",
             "__total_expressed\t1", "__passed_expressed\t1",
             "__total_count\t2", "__passed_count\t2",
             "__total_expressed\t1", "__passed_expressed\t1"].map String.toList, none) ∧
    (["gene\tA", "g\t2", "__total_count\t2", "__passed_count\t2",
      "__total_expressed\t1", "__passed_expressed\t1",
      "__total_count\t2", "__passed_count\t2",
      "__total_expressed\t1", "__passed_expressed\t1"].map String.toList ≠
     ["gene\tA", "g\t2", "__total_count\t2", "__passed_count\t2",
      "__total_expressed\t1", "__passed_expressed\t1"].map String.toList) := by
  decide

/-- Claim C8: for every run of the pass (hence, since any prefix of the data
lines is itself a run, after every processed row), every sample satisfies
`passed_count ≤ total_count` and `passed_expressed ≤ total_expressed`,
`passed_genes ≤ total_genes`, and `total_genes` equals the number of ordinary
rows that parsed successfully. -/
theorem C8_invariants (cfg : Config) (header : Str) (lines : List Str) (st : St)
    (h : runLines cfg header lines = some st) :
    (∀ s ∈ st.samples,
        s.passed_count ≤ s.total_count ∧ s.passed_expressed ≤ s.total_expressed) ∧
    st.passed_genes ≤ st.total_genes ∧
    st.total_genes = lines.countP parsedOrdinary := by
  obtain ⟨m, t, p, n, sn⟩ := runList_char cfg lines (initSt header) st h
  refine ⟨runList_inv cfg lines (initSt header) st h (initSt_inv header), ?_, ?_⟩
  · rw [p, t]
    simp only [initSt, Nat.zero_add]
    exact List.countP_mono_left (fun l _ => emitted_imp_ordinary cfg l)
  · rw [t]
    simp [initSt]

/-- Claim C8, witness: the invariants instantiated on a concrete run. -/
theorem C8_invariants_witness :
    (∀ s ∈ ({ samples := [{ name := "A".toList, metacounts := [], total_count := 2,
                            passed_count := 2, total_expressed := 1, passed_expressed := 1 }],
              metacount_names := [], total_genes := 1, passed_genes := 1,
              mainOut := ["gene\tA".toList, "g\t2".toList] } : St).samples,
        s.passed_count ≤ s.total_count ∧ s.passed_expressed ≤ s.total_expressed) ∧
    (1 : Nat) ≤ 1 ∧
    (1 : Nat) = ["g\t2".toList].countP parsedOrdinary :=
  C8_invariants cfgNone "gene\tA".toList ["g\t2".toList] _ (by decide)

/-- Claim C1, amended: only a count field that fails numeric parsing makes a
row malformed (skipped with no state change); field count is never validated,
so an ordinary row whose fields all parse is counted and accumulated whatever
its field count, as long as it has at most `S` count fields — and a parsed row
with more count fields than samples aborts the program (index panic). -/
theorem C1_amended :
    (∀ (cfg : Config) (st : St) (line : Str),
        countsOf line = none → processLine cfg st line = some st) ∧
    (∀ (cfg : Config) (st : St) (line : Str) (counts : List Nat),
        countsOf line = some counts →
        startsWithMarker (geneOf line) = false →
        counts.length ≤ st.samples.length →
        ∃ st', processLine cfg st line = some st' ∧
          st'.total_genes = st.total_genes + 1) ∧
    (∀ (cfg : Config) (st : St) (line : Str) (counts : List Nat),
        countsOf line = some counts →
        startsWithMarker (geneOf line) = false →
        st.samples.length < counts.length →
        processLine cfg st line = none) := by
  refine ⟨?_, ?_, ?_⟩
  · intro cfg st line hc
    simp [processLine, hc]
  · intro cfg st line counts hc hm hle
    obtain ⟨ss1, ht, hl1⟩ := updTotals_some cfg.expression_threshold st.samples counts hle
    by_cases hf : geneFiltered cfg counts = true
    · exact ⟨{ st with samples := ss1, total_genes := st.total_genes + 1 },
        by simp [processLine, hc, hm, ht, hf], rfl⟩
    · obtain ⟨ss2, hq, _⟩ :=
        updPassed_some cfg.expression_threshold ss1 counts (hl1 ▸ hle)
      refine ⟨{ st with samples := ss2, total_genes := st.total_genes + 1, passed_genes := st.passed_genes + 1, mainOut := st.mainOut ++ [rustTrim line] }, ?_, rfl⟩
      simp [processLine, hc, hm, ht, hf, hq]
  · intro cfg st line counts hc hm hlt
    simp [processLine, hc, hm, updTotals_none cfg.expression_threshold st.samples counts hlt]

/-- Claim C1, amended, witness: the short row `g1<TAB>5` under a two-sample
header is accepted and counted. -/
theorem C1_amended_witness :
    ∃ st', processLine cfgNone (initSt "gene\tA\tB".toList) "g1\t5".toList = some st' ∧
      st'.total_genes = (initSt "gene\tA\tB".toList).total_genes + 1 :=
  C1_amended.2.1 cfgNone (initSt "gene\tA\tB".toList) "g1\t5".toList [5]
    (by decide) (by decide) (by decide)

/-- Claim C2, amended: count parsing precedes identifier inspection, so any
row with an unparsable count field is skipped (metafeature or not); a
metafeature row whose fields all parse is classified on the raw identifier and
routed to the metacount collection. -/
theorem C2_amended :
    (∀ (cfg : Config) (st : St) (line : Str),
        countsOf line = none → processLine cfg st line = some st) ∧
    (∀ (cfg : Config) (st : St) (line : Str) (counts : List Nat),
        countsOf line = some counts →
        startsWithMarker (geneOf line) = true →
        counts.length ≤ st.samples.length →
        ∃ ss, processLine cfg st line =
          some { st with samples := ss,
                         metacount_names := st.metacount_names ++ [geneOf line] }) := by
  refine ⟨?_, ?_⟩
  · intro cfg st line hc
    simp [processLine, hc]
  · intro cfg st line counts hc hm hle
    obtain ⟨ss, hp, _⟩ := pushMeta_some st.samples counts hle
    exact ⟨ss, by simp [processLine, hc, hm, hp]⟩

/-- Claim C2, amended, witness: the parse-failing metafeature row `__m<TAB>x`
is skipped, and the parsing metafeature row `__m<TAB>3` is routed. -/
theorem C2_amended_witness :
    processLine cfgNone (initSt "gene\tA".toList) "__m\tx".toList =
      some (initSt "gene\tA".toList) ∧
    ∃ ss, processLine cfgNone (initSt "gene\tA".toList) "__m\t3".toList =
      some { (initSt "gene\tA".toList) with samples := ss, metacount_names := (initSt "gene\tA".toList).metacount_names ++ [geneOf "__m\t3".toList] } :=
  ⟨C2_amended.1 cfgNone (initSt "gene\tA".toList) "__m\tx".toList (by decide),
   C2_amended.2 cfgNone (initSt "gene\tA".toList) "__m\t3".toList [3]
     (by decide) (by decide) (by decide)⟩

/-- Claim C7: the zero-variance predicate rejects exactly when it is enabled
and all sample counts are pairwise equal (every count equals the first one;
vacuously so for an empty counts list, covering the all-zero case); disabled
it rejects nothing; and with the other two predicates disabled the overall
filtering decision coincides with it. -/
theorem C7_filter_identical :
    (∀ (cfg : Config) (counts : List Nat),
        failsIdentical cfg counts = true ↔
          (cfg.filter_identical = true ∧ ∀ c ∈ counts, ∀ d ∈ counts, c = d)) ∧
    (∀ (cfg : Config) (counts : List Nat),
        cfg.filter_identical = false → failsIdentical cfg counts = false) ∧
    (∀ (cfg : Config) (counts : List Nat),
        cfg.min_count = none → cfg.min_expressed = none →
        geneFiltered cfg counts = failsIdentical cfg counts) := by
  refine ⟨?_, ?_, ?_⟩
  · intro cfg counts
    simp only [failsIdentical, Bool.and_eq_true, List.all_eq_true, decide_eq_true_eq]
    constructor
    · rintro ⟨hi, hall⟩
      refine ⟨hi, ?_⟩
      intro c hc d hd
      rw [hall c hc, hall d hd]
    · rintro ⟨hi, hpair⟩
      refine ⟨hi, ?_⟩
      intro c hc
      cases counts with
      | nil => cases hc
      | cons a l => exact hpair c hc a (List.mem_cons_self a l)
  · intro cfg counts h
    simp [failsIdentical, h]
  · intro cfg counts h1 h2
    simp [geneFiltered, failsMinCount, failsMinExpressed, h1, h2]

/-- Claim C7, witness: an all-identical row is rejected when the predicate is
enabled, and nothing is rejected when it is disabled. -/
theorem C7_filter_identical_witness :
    failsIdentical cfgIdent [3, 3, 3] = true ∧
    failsIdentical cfgNone [3, 4] = false :=
  ⟨(C7_filter_identical.1 cfgIdent [3, 3, 3]).mpr ⟨rfl, by decide⟩,
   C7_filter_identical.2.1 cfgNone [3, 4] rfl⟩

/-- Claim C10: a line that is empty or whitespace-only is not malformed: it
parses as an ordinary row with empty identifier and an empty counts sequence,
increments `total_genes`, and with no enabled predicate rejecting (e.g. all
filters disabled) it is counted as passed and echoed (as an empty line) to the
main output. -/
theorem C10_blank_line (cfg : Config) (st : St) (line : Str)
    (hb : rustTrim line = []) :
    countsOf line = some [] ∧ geneOf line = [] ∧
    (∃ st', processLine cfg st line = some st' ∧
      st'.total_genes = st.total_genes + 1) ∧
    (cfg.min_count = none → cfg.min_expressed = none → cfg.filter_identical = false →
      processLine cfg st line =
        some { st with total_genes := st.total_genes + 1,
                       passed_genes := st.passed_genes + 1,
                       mainOut := st.mainOut ++ [[]] }) := by
  have hc : countsOf line = some [] := by
    simp [countsOf, fieldsOf, hb, splitTab, optMap]
  have hg : geneOf line = [] := by
    simp [geneOf, fieldsOf, hb, splitTab]
  have hm : startsWithMarker (geneOf line) = false := by rw [hg]; rfl
  refine ⟨hc, hg, ?_, ?_⟩
  · by_cases hf : geneFiltered cfg [] = true
    · refine ⟨{ st with total_genes := st.total_genes + 1 }, ?_, rfl⟩
      simp [processLine, hc, hm, updTotals_nil, hf]
    · refine ⟨{ st with total_genes := st.total_genes + 1, passed_genes := st.passed_genes + 1, mainOut := st.mainOut ++ [rustTrim line] }, ?_, rfl⟩
      simp [processLine, hc, hm, updTotals_nil, updPassed_nil, hf]
  · intro h1 h2 h3
    have hf : geneFiltered cfg [] = false := by
      simp [geneFiltered, failsMinCount, failsMinExpressed, failsIdentical, h1, h2, h3]
    simp [processLine, hc, hm, updTotals_nil, updPassed_nil, hf, hb]

/-- Claim C10, witness: a single-space line under a one-sample header is
counted, passed, and echoed as an empty line. -/
theorem C10_blank_line_witness :
    processLine cfgNone (initSt "gene\tA".toList) " ".toList =
      some { (initSt "gene\tA".toList) with
             total_genes := (initSt "gene\tA".toList).total_genes + 1,
             passed_genes := (initSt "gene\tA".toList).passed_genes + 1,
             mainOut := (initSt "gene\tA".toList).mainOut ++ [[]] } :=
  (C10_blank_line cfgNone (initSt "gene\tA".toList) " ".toList (by decide)).2.2.2
    rfl rfl rfl

/-- Claim C5, amended: the main output is the header first, then every
retained ordinary row (trimmed) in input order; with the combined destination
the summary rows and the re-serialized metafeature rows are appended after all
retained ordinary rows, and with a separate destination nothing follows. -/
theorem C5_amended (cfg : Config) (header : Str) (lines : List Str)
    (out : List Str) (mo : Option (List Str))
    (h : runProgram cfg header lines = some (out, mo)) :
    ∃ st rows, runLines cfg header lines = some st ∧
      metaRowLines cfg st.samples st.metacount_names = some rows ∧
      out = header :: (lines.filterMap (emittedLine cfg) ++
        (if cfg.separate_metacounts = true then []
         else summaryLines cfg st.samples ++ rows)) := by
  simp only [runProgram] at h
  cases hr : runLines cfg header lines with
  | none => simp only [hr] at h; exact Option.noConfusion h
  | some st =>
    simp only [hr] at h
    cases hrows : metaRowLines cfg st.samples st.metacount_names with
    | none => simp only [hrows] at h; exact Option.noConfusion h
    | some rows =>
      simp only [hrows] at h
      have hmain := (runList_char cfg lines (initSt header) st hr).1
      simp only [initSt] at hmain
      by_cases hsep : cfg.separate_metacounts = true
      · rw [if_pos hsep] at h
        cases h
        exact ⟨st, rows, rfl, hrows, by simp [hmain, hsep]⟩
      · rw [if_neg hsep] at h
        cases h
        refine ⟨st, rows, rfl, hrows, ?_⟩
        simp [hmain, hsep, metaHeaderLines]

/-- Claim C5, amended, witness: a concrete combined-destination run showing
header, retained rows in input order, then the appended metafeature row. -/
theorem C5_amended_witness :
    ∃ st rows,
      runLines cfgNone "gene\tA".toList ["__m\t1".toList, "g\t2".toList] = some st ∧
      metaRowLines cfgNone st.samples st.metacount_names = some rows ∧
      (["gene\tA", "g\t2", "__m\t1"].map String.toList) =
        "gene\tA".toList :: (["__m\t1".toList, "g\t2".toList].filterMap (emittedLine cfgNone) ++
          (if cfgNone.separate_metacounts = true then []
           else summaryLines cfgNone st.samples ++ rows)) :=
  C5_amended cfgNone "gene\tA".toList ["__m\t1".toList, "g\t2".toList]
    (["gene\tA", "g\t2", "__m\t1"].map String.toList) none (by decide)

/-- Claim C6, amended: a parsed ordinary row is retained iff every enabled
predicate passes (a disabled predicate never rejects), and with every
predicate disabled `passed_genes = total_genes` and the main output is the
header plus every successfully parsed ordinary data line, trimmed, in input
order — the input minus malformed rows, metafeature rows, and surrounding
whitespace. -/
theorem C6_amended :
    (∀ (cfg : Config) (counts : List Nat),
        geneFiltered cfg counts = false ↔
          ((∀ m, cfg.min_count = some m → m ≤ counts.sum) ∧
           (∀ m, cfg.min_expressed = some m →
              m ≤ nexpressed cfg.expression_threshold counts) ∧
           (cfg.filter_identical = true → ¬(∀ c ∈ counts, ∀ d ∈ counts, c = d)))) ∧
    (∀ (cfg : Config) (header : Str) (lines : List Str) (st : St),
        cfg.min_count = none → cfg.min_expressed = none →
        cfg.filter_identical = false →
        runLines cfg header lines = some st →
        st.passed_genes = st.total_genes ∧
        st.mainOut = header :: lines.filterMap (fun l =>
          if parsedOrdinary l then some (rustTrim l) else none)) := by
  constructor
  · intro cfg counts
    simp only [geneFiltered, Bool.or_eq_false_iff]
    constructor
    · rintro ⟨⟨hmc, hme⟩, hid⟩
      refine ⟨?_, ?_, ?_⟩
      · intro m hm
        rw [failsMinCount, hm] at hmc
        simpa using hmc
      · intro m hm
        rw [failsMinExpressed, hm] at hme
        simpa using hme
      · intro hi hpair
        rw [failsIdentical, hi] at hid
        simp only [Bool.true_and] at hid
        have hall : counts.all (fun c => decide (c = counts.headD 0)) = true :=
          List.all_eq_true.mpr (fun c hc =>
            decide_eq_true ((allEqHead_iff_pairwise counts).mpr hpair c hc))
        rw [hall] at hid
        exact Bool.noConfusion hid
    · rintro ⟨hmc, hme, hid⟩
      refine ⟨⟨?_, ?_⟩, ?_⟩
      · rw [failsMinCount]
        cases hm : cfg.min_count with
        | none => rfl
        | some m => simpa using hmc m hm
      · rw [failsMinExpressed]
        cases hm : cfg.min_expressed with
        | none => rfl
        | some m => simpa using hme m hm
      · rw [failsIdentical]
        cases hi : cfg.filter_identical with
        | false => rfl
        | true =>
          simp only [Bool.true_and]
          have hni := hid hi
          rw [← allEqHead_iff_pairwise counts] at hni
          rw [Bool.eq_false_iff]
          intro hall
          rw [List.all_eq_true] at hall
          exact hni (fun c hc => of_decide_eq_true (hall c hc))
  · intro cfg header lines st h1 h2 h3 hrun
    obtain ⟨hm, ht, hp, _, _⟩ := runList_char cfg lines (initSt header) st hrun
    have hemit : emittedLine cfg = fun l =>
        if parsedOrdinary l then some (rustTrim l) else none :=
      funext fun l => emittedLine_allOff cfg l h1 h2 h3
    constructor
    · rw [hp, ht]
      simp only [initSt]
      congr 1
      refine List.countP_congr ?_
      intro l _
      rw [hemit]
      by_cases ho : parsedOrdinary l = true <;> simp [ho]
    · rw [hm, hemit]
      simp [initSt]

/-- Claim C6, amended, witness: a concrete all-predicates-disabled run with a
malformed row, a metafeature row and two ordinary rows. -/
theorem C6_amended_witness :
    (∃ st, runLines cfgNone "gene\tA".toList
        (["g1\t2", "bad\tx", "__m\t1", "g2\t0"].map String.toList) = some st ∧
      st.passed_genes = st.total_genes ∧
      st.mainOut = "gene\tA".toList ::
        (["g1\t2", "bad\tx", "__m\t1", "g2\t0"].map String.toList).filterMap (fun l =>
          if parsedOrdinary l then some (rustTrim l) else none)) := by
  refine ⟨{ samples := [{ name := "A".toList, metacounts := [1], total_count := 2,
                          passed_count := 2, total_expressed := 1, passed_expressed := 1 }],
            metacount_names := ["__m".toList], total_genes := 2, passed_genes := 2,
            mainOut := ["gene\tA".toList, "g1\t2".toList, "g2\t0".toList] }, by decide, ?_, ?_⟩
  · exact (C6_amended.2 cfgNone "gene\tA".toList
      (["g1\t2", "bad\tx", "__m\t1", "g2\t0"].map String.toList) _ rfl rfl rfl (by decide)).1
  · exact (C6_amended.2 cfgNone "gene\tA".toList
      (["g1\t2", "bad\tx", "__m\t1", "g2\t0"].map String.toList) _ rfl rfl rfl (by decide)).2

/-- Claim C3, amended: a single metafeature row (all fields parsing, with `S`
count fields, summary off) is written after the pass — to the combined output
re-serialized as the raw identifier, a tab, and the decimal per-sample values
when no separate destination is configured, and to the separate destination
with every leading underscore stripped from the identifier otherwise. -/
theorem C3_amended (cfg : Config) (header line : Str) (counts : List Nat)
    (hm : startsWithMarker (geneOf line) = true)
    (hp : countsOf line = some counts)
    (hlen : counts.length = sampleCount header)
    (hs : cfg.summary_metacounts = false) :
    runProgram cfg header [line] =
      some (if cfg.separate_metacounts = true then
        (([header] : List Str),
         some [joinTab ("feature".toList :: sampleNames header),
               stripUnderscores (geneOf line) ++ '\t' :: joinTab (counts.map natToDec)])
      else
        ([header, geneOf line ++ '\t' :: joinTab (counts.map natToDec)], none)) := by
  have hslen : counts.length = (initSt header).samples.length := by
    rw [initSt_samples_length]; exact hlen
  have hzip := pushMeta_zip (initSt header).samples counts hslen
  have hrun : runLines cfg header [line] =
      some { samples := List.zipWith bumpMeta (initSt header).samples counts,
             metacount_names := [geneOf line], total_genes := 0, passed_genes := 0,
             mainOut := [header] } := by
    simp only [runLines, runList, processLine, hp, hm, if_pos, hzip]
    rfl
  have hget := optMap_get0_zipBump (initSt header).samples counts hslen
    (initSt_metacounts_nil header)
  have hrows : metaRowLines cfg
      (List.zipWith bumpMeta (initSt header).samples counts) [geneOf line] =
      some [dispName cfg (geneOf line) ++ '\t' :: joinTab (counts.map natToDec)] := by
    simp only [metaRowLines, metaRowsAux, hget]
  have hnames : (List.zipWith bumpMeta (initSt header).samples counts).map (·.name) =
      sampleNames header := by
    rw [pushMeta_map_name _ _ _ hzip, initSt_names]
  by_cases hsep : cfg.separate_metacounts = true
  · rw [if_pos hsep]
    simp only [runProgram, hrun, hrows, metaHeaderLines, summaryLines, hs, hsep,
      dispName, hnames]
    simp
  · rw [if_neg hsep]
    simp only [runProgram, hrun, hrows, metaHeaderLines, summaryLines, hs, hsep,
      dispName, hnames, Bool.false_eq_true, if_false]
    simp

/-- Claim C3, amended, witness: the two destinations on concrete inputs. -/
theorem C3_amended_witness :
    runProgram cfgNone "gene\tA".toList ["__m\t07".toList] =
      some (if cfgNone.separate_metacounts = true then
        ((["gene\tA".toList] : List Str),
         some [joinTab ("feature".toList :: sampleNames "gene\tA".toList),
               stripUnderscores (geneOf "__m\t07".toList) ++ '\t' ::
                 joinTab ([7].map natToDec)])
      else
        (["gene\tA".toList,
          geneOf "__m\t07".toList ++ '\t' :: joinTab ([7].map natToDec)], none)) :=
  C3_amended cfgNone "gene\tA".toList "__m\t07".toList [7]
    (by decide) (by decide) (by decide) rfl

/-- Claim C4, amended: with summary metacounts enabled, the four synthetic
rows `total_count`, `passed_count`, `total_expressed`, `passed_expressed` are
written to the metacount destination immediately after the optional metacount
header and *before* all input-derived metafeature rows, each listing the
per-sample accumulator values in header order (with the `__` marker on the
combined destination). -/
theorem C4_amended (cfg : Config) (header : Str) (lines : List Str) (st : St)
    (rows : List Str)
    (hsum : cfg.summary_metacounts = true)
    (hrun : runLines cfg header lines = some st)
    (hrows : metaRowLines cfg st.samples st.metacount_names = some rows) :
    (cfg.separate_metacounts = true →
      runProgram cfg header lines = some (st.mainOut,
        some (joinTab ("feature".toList :: st.samples.map (·.name)) ::
          ("total_count".toList ++ '\t' ::
            joinTab (st.samples.map fun s => natToDec s.total_count)) ::
          ("passed_count".toList ++ '\t' ::
            joinTab (st.samples.map fun s => natToDec s.passed_count)) ::
          ("total_expressed".toList ++ '\t' ::
            joinTab (st.samples.map fun s => natToDec s.total_expressed)) ::
          ("passed_expressed".toList ++ '\t' ::
            joinTab (st.samples.map fun s => natToDec s.passed_expressed)) :: rows))) ∧
    (cfg.separate_metacounts = false →
      runProgram cfg header lines = some (st.mainOut ++
        ("__total_count".toList ++ '\t' ::
          joinTab (st.samples.map fun s => natToDec s.total_count)) ::
        ("__passed_count".toList ++ '\t' ::
          joinTab (st.samples.map fun s => natToDec s.passed_count)) ::
        ("__total_expressed".toList ++ '\t' ::
          joinTab (st.samples.map fun s => natToDec s.total_expressed)) ::
        ("__passed_expressed".toList ++ '\t' ::
          joinTab (st.samples.map fun s => natToDec s.passed_expressed)) :: rows,
        none)) := by
  constructor
  · intro hsep
    simp only [runProgram, hrun, hrows, metaHeaderLines, summaryLines, hsum,
      summaryLine, markerText, hsep, if_pos, if_true]
    rfl
  · intro hsep
    simp only [runProgram, hrun, hrows, metaHeaderLines, summaryLines, hsum,
      summaryLine, markerText, hsep, if_neg, if_false, Bool.false_eq_true]
    rfl

/-- Claim C4, amended, witness: the separate-destination example, where the
four summary rows precede the input-derived row `m<TAB>5`. -/
theorem C4_amended_witness :
    runProgram cfgSepSum "gene\tA".toList ["__m\t5".toList] =
      some (["gene\tA".toList],
        some (["feature\tA", "total_count\t0", "passed_count\t0",
               "total_expressed\t0", "passed_expressed\t0", "m\t5"].map String.toList)) :=
  (C4_amended cfgSepSum "gene\tA".toList ["__m\t5".toList]
    { samples := [{ name := "A".toList, metacounts := [5], total_count := 0,
                    passed_count := 0, total_expressed := 0, passed_expressed := 0 }],
      metacount_names := ["__m".toList], total_genes := 0, passed_genes := 0,
      mainOut := ["gene\tA".toList] }
    ["m\t5".toList] rfl (by decide) (by decide)).1 rfl

/-- Claim C9, amended: re-running the filter on its own main output with the
same configuration reproduces that main output, provided summary metacounts
are not written to the combined stream (either the summary is off or the
metacounts go to a separate destination).  With summary rows on the combined
stream they are re-ingested as metafeature rows, and the output grows (see the
counterexample). -/
theorem C9_amended (cfg : Config) (header : Str) (lines : List Str)
    (out : List Str) (mo : Option (List Str))
    (hnos : cfg.summary_metacounts = false ∨ cfg.separate_metacounts = true)
    (h : runProgram cfg header lines = some (out, mo)) :
    ∃ rest mo2, out = header :: rest ∧
      runProgram cfg header rest = some (out, mo2) := by
  simp only [runProgram] at h
  cases hrun : runLines cfg header lines with
  | none => simp only [hrun] at h; exact Option.noConfusion h
  | some st =>
    simp only [hrun] at h
    cases hrows : metaRowLines cfg st.samples st.metacount_names with
    | none => simp only [hrows] at h; exact Option.noConfusion h
    | some rows =>
      simp only [hrows] at h
      have hmain : st.mainOut = header :: lines.filterMap (emittedLine cfg) := by
        rw [(runList_char cfg lines (initSt header) st hrun).1]
        rfl
      set passed := lines.filterMap (emittedLine cfg) with hpassedDef
      have hemit : ∀ l ∈ passed, emittedLine cfg l = some l := by
        intro l hl
        obtain ⟨l0, hl0, he⟩ := List.mem_filterMap.mp hl
        exact emittedLine_idem cfg l0 l he
      have hplen : ∀ l ∈ passed, ∀ cs, countsOf l = some cs →
          cs.length ≤ (initSt header).samples.length := by
        intro l hl cs hc
        obtain ⟨l0, hl0, he⟩ := List.mem_filterMap.mp hl
        obtain ⟨heq, cs0, hc0, _, _⟩ := emittedLine_elim cfg l0 l he
        have hcc : countsOf l = countsOf l0 := by rw [heq, countsOf_trim]
        rw [hcc, hc0] at hc
        cases hc
        exact runList_counts_ok cfg lines (initSt header) st hrun l0 hl0 _ hc0
      obtain ⟨stp, hrunp, hmop, hnmp, hmcp, hslp⟩ :=
        runList_ordinary cfg passed (initSt header) hemit hplen
      have hmop' : stp.mainOut = header :: passed := by
        rw [hmop]
        rfl
      by_cases hsep : cfg.separate_metacounts = true
      · rw [if_pos hsep] at h
        cases h
        have hrows2 : metaRowLines cfg stp.samples stp.metacount_names = some [] := by
          rw [hnmp]
          rfl
        refine ⟨passed,
          some (metaHeaderLines cfg stp.samples ++ summaryLines cfg stp.samples ++ []),
          hmain, ?_⟩
        have hrp : runProgram cfg header passed = some (stp.mainOut,
            some (metaHeaderLines cfg stp.samples ++ summaryLines cfg stp.samples ++ [])) := by
          simp only [runProgram, runLines, hrunp, hrows2, if_pos hsep]
        rw [hrp, hmop', hmain]
      · rw [if_neg hsep] at h
        cases h
        have hsum : cfg.summary_metacounts = false := hnos.resolve_right hsep
        have hsepf : cfg.separate_metacounts = false := Bool.eq_false_iff.mpr hsep
        have hmetaL : metaHeaderLines cfg st.samples ++ summaryLines cfg st.samples ++ rows
            = rows := by
          simp [metaHeaderLines, summaryLines, hsepf, hsum]
        have hSlen : st.samples.length = (initSt header).samples.length :=
          runList_samples_length cfg lines (initSt header) st hrun
        have hgood0 := runList_names_good cfg lines (initSt header) st hrun
          (by intro nm hnm; exact absurd hnm (by simp [initSt]))
        have hgood : ∀ nm ∈ st.metacount_names, startsWithMarker nm = true ∧
            '\t' ∉ nm ∧ (st.samples.length = 0 → rustTrim nm = nm) := by
          intro nm hnm
          obtain ⟨h1, h2, h3⟩ := hgood0 nm hnm
          exact ⟨h1, h2, fun h0 => h3 (by rw [← hSlen]; exact h0)⟩
        have hbound : ∀ s ∈ st.samples, ∀ c ∈ s.metacounts, c < 2 ^ 64 := by
          refine runList_bound cfg lines (initSt header) st hrun ?_
          intro s hs c hc
          rw [initSt_metacounts_nil header s hs] at hc
          cases hc
        have hmlen : ∀ s ∈ st.samples, s.metacounts.length ≤ st.metacount_names.length := by
          refine runList_meta_len cfg lines (initSt header) st hrun ?_
          intro s hs
          rw [initSt_metacounts_nil header s hs]
          simp [initSt]
        have hmcp0 : stp.samples.map (·.metacounts) =
            (st.samples.map (·.metacounts)).map (List.take 0) := by
          rw [hmcp]
          have e1 : (initSt header).samples.map (·.metacounts) =
              List.replicate (initSt header).samples.length ([] : List Nat) := by
            have := List.eq_replicate_of_mem (a := ([] : List Nat))
              (l := (initSt header).samples.map (·.metacounts)) (by
                intro b hb
                obtain ⟨s, hs, rfl⟩ := List.mem_map.mp hb
                exact initSt_metacounts_nil header s hs)
            simpa using this
          have e2 : (st.samples.map (·.metacounts)).map (List.take 0) =
              List.replicate st.samples.length ([] : List Nat) := by
            have e21 : (st.samples.map (·.metacounts)).map (List.take 0) =
                (st.samples.map (·.metacounts)).map (fun _ => ([] : List Nat)) :=
              List.map_congr_left (fun m _ => List.take_zero m)
            rw [e21, List.map_const']
            simp
          rw [e1, e2, hSlen]
        have hrows0 : metaRowsAux cfg st.samples 0 st.metacount_names = some rows := hrows
        obtain ⟨st2', hrun2, hn2, hm2, hl2, hmc2⟩ :=
          ingest cfg hsepf st.samples st.metacount_names 0 rows stp hrows0 hgood hbound
            (by rw [hslp, ← hSlen]) hmcp0
        have hmc2' : st2'.samples.map (·.metacounts) = st.samples.map (·.metacounts) := by
          rw [hmc2]
          have hall : ∀ m ∈ st.samples.map (·.metacounts),
              List.take (0 + st.metacount_names.length) m = m := by
            intro m hm
            obtain ⟨s, hs, rfl⟩ := List.mem_map.mp hm
            exact List.take_of_length_le (by simpa using hmlen s hs)
          rw [List.map_congr_left hall]
          exact List.map_id _
        have hrows2 : metaRowLines cfg st2'.samples st2'.metacount_names = some rows := by
          rw [hn2, hnmp]
          show metaRowsAux cfg st2'.samples 0
            ((initSt header).metacount_names ++ st.metacount_names) = some rows
          rw [metaRowsAux_congr cfg st2'.samples st.samples hmc2']
          exact hrows0
        have hrun2' : runLines cfg header (passed ++ rows) = some st2' := by
          unfold runLines
          rw [runList_append cfg passed rows (initSt header), hrunp]
          exact hrun2
        refine ⟨passed ++ rows, none, ?_, ?_⟩
        · rw [hmetaL, hmain]
          simp
        · simp only [runProgram, hrun2', hrows2, if_neg hsep]
          rw [hmetaL]
          have hout2 : st2'.mainOut ++ (metaHeaderLines cfg st2'.samples ++
              summaryLines cfg st2'.samples ++ rows) = st.mainOut ++ rows := by
            simp only [metaHeaderLines, summaryLines, hsepf, hsum, Bool.false_eq_true,
              if_false, List.nil_append]
            rw [hm2, hmop', hmain]
          rw [hout2]

/-- Claim C9, amended, witness: a combined-destination run without summary
rows reproduces its own main output. -/
theorem C9_amended_witness :
    ∃ rest mo2,
      (["gene\tA", "g\t2", "__m\t1"].map String.toList) = "gene\tA".toList :: rest ∧
      runProgram cfgNone "gene\tA".toList rest =
        some (["gene\tA", "g\t2", "__m\t1"].map String.toList, mo2) :=
  C9_amended cfgNone "gene\tA".toList ["__m\t1".toList, "g\t2".toList]
    (["gene\tA", "g\t2", "__m\t1"].map String.toList) none (Or.inl rfl) (by decide)
